import Mathlib

set_option maxRecDepth 4000
set_option linter.unusedVariables false

/-!
Shallow embedding of the match-3 tile game (TileMatchGame scene).

The source keeps a square `tileArray` of tiles, each carrying a `color`
and an `isEmpty` occupancy flag, scans rows and columns for runs of at
least three equal colors, destroys the marked tiles, lets the surviving
tiles fall (compaction), refills the vacated top cells with random
colors, and repeats until the board has no match.  Sprites, tweens and
logging are presentation-level and are dropped; a tile is identified by
its grid position (value semantics), random colors are drawn from an
arbitrary stream `Nat → Nat`, the sprite pool is modelled by its size,
and each batch of animations is modelled as completing atomically
before the completion callback logic runs.  The grid size, fixed to 7
in the source configuration, is kept as a parameter `n`.
-/

/-- A tile of the grid: its color and whether the cell is an empty hole. -/
structure Tile where
  color : Nat
  isEmpty : Bool
deriving DecidableEq

/-- The placeholder tile used for cells vacated during compaction
(color 0, marked empty), also used as lookup default. -/
def emptyTile : Tile := { color := 0, isEmpty := true }

/-- The grid: a square matrix of tiles, addressed row-first. -/
abbrev Grid (n : Nat) := Fin n → Fin n → Tile

/-- The removal mask (removeMap): per-cell count of matching runs covering
the cell.  Kept total over all naturals, mirroring a growable array. -/
abbrev RemoveMap := Nat → Nat → Nat

def HORIZONTAL : Nat := 1

def VERTICAL : Nat := 2

/-- Bounds-checked cell lookup (tileAt): in-bounds cells are always
present (even when flagged empty); out-of-range coordinates give none. -/
def tileAt {n : Nat} (g : Grid n) (row col : Int) : Option Tile :=
  if h : 0 ≤ row ∧ row < (n : Int) ∧ 0 ≤ col ∧ col < (n : Int) then
    some (g ⟨row.toNat, by omega⟩ ⟨col.toNat, by omega⟩)
  else none

/-- isHorizontalMatch: the cell and its two left neighbours exist and share
one color. -/
def isHorizontalMatch {n : Nat} (g : Grid n) (row col : Int) : Bool :=
  match tileAt g row col, tileAt g row (col - 1), tileAt g row (col - 2) with
  | some t0, some t1, some t2 => t1.color == t0.color && t2.color == t0.color
  | _, _, _ => false

/-- isVerticalMatch: the cell and its two upper neighbours exist and share
one color. -/
def isVerticalMatch {n : Nat} (g : Grid n) (row col : Int) : Bool :=
  match tileAt g row col, tileAt g (row - 1) col, tileAt g (row - 2) col with
  | some t0, some t1, some t2 => t1.color == t0.color && t2.color == t0.color
  | _, _, _ => false

/-- isMatch: the cell completes a horizontal or a vertical backward run. -/
def isMatch {n : Nat} (g : Grid n) (row col : Int) : Bool :=
  isHorizontalMatch g row col || isVerticalMatch g row col

/-- matchInBoard: some cell of the grid satisfies isMatch. -/
def matchInBoard {n : Nat} (g : Grid n) : Bool :=
  (List.range n).any fun i => (List.range n).any fun j => isMatch g i j

/-- The scan state of markMatches: current run length, current color
(-1 is the sentinel before any tile is seen), and run start position. -/
structure StreakState where
  colorStreak : Nat
  currentColor : Int
  startStreak : Nat
deriving DecidableEq

/-- Increment one entry of the removal mask (removeMap[r0][c0]++). -/
def bump (m : RemoveMap) (r0 c0 : Nat) : RemoveMap :=
  fun r c => if r = r0 ∧ c = c0 then m r c + 1 else m r c

/-- Increment the mask entry for position pos of line i of the given
direction (row i for HORIZONTAL, column i otherwise). -/
def bumpAt (dir i pos : Nat) (m : RemoveMap) : RemoveMap :=
  if dir = HORIZONTAL then bump m i pos else bump m pos i

/-- Flush a finished streak: when its length is at least 3, increment the
mask entry of every cell the streak covers. -/
def flushStreak (dir i : Nat) (st : StreakState) (m : RemoveMap) : RemoveMap :=
  if 3 ≤ st.colorStreak then
    (List.range st.colorStreak).foldl
      (fun acc k => bumpAt dir i (st.startStreak + k) acc) m
  else m

/-- The tile markMatches inspects at step j of line i:
tileAt(i, j) for HORIZONTAL, tileAt(j, i) for VERTICAL. -/
def lineTile {n : Nat} (g : Grid n) (dir i j : Nat) : Option Tile :=
  if dir = HORIZONTAL then tileAt g i j else tileAt g j i

/-- The inner loop of markMatches over one line, followed by the trailing
flush: count is the number of remaining loop iterations, j the current
position. -/
def scanLine {n : Nat} (g : Grid n) (dir i : Nat) :
    Nat → Nat → StreakState → RemoveMap → RemoveMap
  | 0, _, st, m => flushStreak dir i st m
  | count + 1, j, st, m =>
    match lineTile g dir i j with
    | none =>
      scanLine g dir i count (j + 1) ⟨1, -1, j + 1⟩ (flushStreak dir i st m)
    | some tile =>
      if (tile.color : Int) = st.currentColor then
        scanLine g dir i count (j + 1)
          ⟨st.colorStreak + 1, st.currentColor, st.startStreak⟩ m
      else
        scanLine g dir i count (j + 1)
          ⟨1, (tile.color : Int), j⟩ (flushStreak dir i st m)

/-- One line of markMatches: scan the n positions of line i starting from
the initial state (streak 1, sentinel color -1, start 0). -/
def markLine {n : Nat} (g : Grid n) (dir i : Nat) (m : RemoveMap) : RemoveMap :=
  scanLine g dir i n 0 ⟨1, -1, 0⟩ m

/-- markMatches: run the line scan over every line of one direction. -/
def markMatches {n : Nat} (g : Grid n) (dir : Nat) (m : RemoveMap) : RemoveMap :=
  (List.range n).foldl (fun acc i => markLine g dir i acc) m

/-- The all-zero removal mask handleMatches starts from. -/
def zeroMap : RemoveMap := fun _ _ => 0

/-- The removal mask computed by handleMatches: a fresh zero mask, marked
horizontally and then vertically. -/
def handleMatchesMask {n : Nat} (g : Grid n) : RemoveMap :=
  markMatches g VERTICAL (markMatches g HORIZONTAL zeroMap)


/-- The invariant the markMatches loop state satisfies before processing
position j of a line: either the state is freshly (re)initialized at j
with the sentinel color, or the streak records that the last colorStreak
positions before j all carry the current color. -/
def StreakInv {n : Nat} (g : Grid n) (dir i j : Nat) (st : StreakState) : Prop :=
  (st.currentColor = -1 ∧ st.colorStreak = 1 ∧ st.startStreak = j) ∨
  (st.startStreak + st.colorStreak = j ∧ 1 ≤ st.colorStreak ∧
    ∀ k, st.startStreak ≤ k → k < j →
      ∃ t, lineTile g dir i k = some t ∧ (t.color : Int) = st.currentColor)

/-- The removal mask has a positive entry at some in-bounds cell. -/
def MaskPos (n : Nat) (m : RemoveMap) : Prop :=
  ∃ r c, r < n ∧ c < n ∧ 0 < m r c

/-- The row-major list of all cell coordinates, as the double loops of
destroyMarkedTiles walk them. -/
def cellPairs (n : Nat) : List (Nat × Nat) :=
  (List.range n).flatMap fun i => (List.range n).map fun j => (i, j)

/-- totalToDestroy of destroyMarkedTiles: the number of cells whose mask
entry is positive. -/
def destroyedCount (n : Nat) (m : RemoveMap) : Nat :=
  (cellPairs n).countP fun p => decide (0 < m p.1 p.2)

/-- The grid mutation of destroyMarkedTiles: every cell with a positive
mask entry is marked empty (its color is left in place). -/
def destroyTiles {n : Nat} (g : Grid n) (m : RemoveMap) : Grid n :=
  fun i j => if 0 < m i.val j.val then { g i j with isEmpty := true } else g i j

/-- Build a concrete grid from a row-major list of rows. -/
def gridOfRows (n : Nat) (rows : List (List Tile)) : Grid n :=
  fun i j => (rows.getD i.val []).getD j.val emptyTile

/-- A mid-cascade 4x4 grid: row 0 reads colors 0,0,0,1 and its cell (0,1)
is an unoccupied hole that kept color 0; no other run exists. -/
def holeRunGrid : Grid 4 :=
  gridOfRows 4
    [[⟨0, false⟩, ⟨0, true⟩, ⟨0, false⟩, ⟨1, false⟩],
     [⟨2, false⟩, ⟨5, false⟩, ⟨3, false⟩, ⟨2, false⟩],
     [⟨3, false⟩, ⟨6, false⟩, ⟨4, false⟩, ⟨3, false⟩],
     [⟨2, false⟩, ⟨5, false⟩, ⟨3, false⟩, ⟨2, false⟩]]

/-- holesBelow: the number of empty cells strictly below the given row of
a column (the loop over rows row+1 .. size-1 counting isEmpty). -/
def holesBelow (col : List Tile) (row : Nat) : Nat :=
  (col.drop (row + 1)).countP fun t => t.isEmpty

/-- The body of the compaction loop of onAfterTilesDestroyed for one row
index i of a column: a non-empty tile with fallTiles holes below moves
down by fallTiles and a fresh empty placeholder takes its place. -/
def compactStep (col : List Tile) (i : Nat) : List Tile :=
  let t := col.getD i emptyTile
  if t.isEmpty then col
  else
    let fallTiles := holesBelow col i
    if 0 < fallTiles then (col.set (i + fallTiles) t).set i emptyTile else col

/-- onAfterTilesDestroyed restricted to one column: process the row
indices size-2 down to 0 (the bottom row never falls). -/
def compactColumn (col : List Tile) : List Tile :=
  ((List.range (col.length - 1)).reverse).foldl compactStep col

/-- Column j of the grid as a list, top to bottom (out-of-range column
index gives a column of placeholders; all uses are in range). -/
def colOfN {n : Nat} (g : Grid n) (j : Nat) : List Tile :=
  List.ofFn fun i : Fin n => if h : j < n then g i ⟨j, h⟩ else emptyTile

/-- onAfterTilesDestroyed: compaction applied to every column
independently. -/
def compactGrid {n : Nat} (g : Grid n) : Grid n :=
  fun i j => (compactColumn (colOfN g j.val)).getD i.val emptyTile

/-- holesInCol: the number of empty cells of a column. -/
def holesInCol (col : List Tile) : Nat :=
  col.countP fun t => t.isEmpty

/-- The invariant of the compaction loop over one column, after the row
indices down to i (exclusive prefix untouched) have been processed: rows
above i are unchanged, the rows from i on consist of exactly the
original number of suffix holes on top followed by occupied cells, and
every surviving original cell from row p on sits at its destination row
p + holesBelow col p. -/
def CompactInv (col : List Tile) (i : Nat) (s : List Tile) : Prop :=
  s.length = col.length ∧
  (∀ r, r < i → s.getD r emptyTile = col.getD r emptyTile) ∧
  (∀ q, i ≤ q → q < col.length →
    ((s.getD q emptyTile).isEmpty = true ↔
      q < i + (col.drop i).countP fun t => t.isEmpty)) ∧
  (∀ p, i ≤ p → p < col.length → (col.getD p emptyTile).isEmpty = false →
    s.getD (p + holesBelow col p) emptyTile = col.getD p emptyTile)

/-- One slot of the refill loop of replenishField: the slot draws a
random color from the stream and, when the sprite pool is non-empty, the
column position is recolored and marked occupied while the pool shrinks;
an exhausted pool skips the slot (the color draw is consumed either
way). -/
def replenishSlot (stream : Nat → Nat) (acc : List Tile × Nat × Nat) (i : Nat) :
    List Tile × Nat × Nat :=
  let randomColor := stream acc.2.2
  match acc.2.1 with
  | 0 => (acc.1, 0, acc.2.2 + 1)
  | p + 1 => (acc.1.set i { color := randomColor, isEmpty := false }, p, acc.2.2 + 1)

/-- The refill loop of replenishField for one column: the topmost
emptySpots = holesInCol positions 0 .. emptySpots-1 are refilled in
order.  Returns the column, the remaining pool and the next stream
index. -/
def replenishColumn (col : List Tile) (pool k : Nat) (stream : Nat → Nat) :
    List Tile × Nat × Nat :=
  (List.range (holesInCol col)).foldl (replenishSlot stream) (col, pool, k)

/-- Overwrite column j0 of the grid with the given list. -/
def setColN {n : Nat} (g : Grid n) (j0 : Nat) (col : List Tile) : Grid n :=
  fun i j => if j.val = j0 then col.getD i.val emptyTile else g i j

/-- One column step of replenishField: refill column j from the current
pool and stream position and write the column back. -/
def replenishGridStep {n : Nat} (stream : Nat → Nat) (acc : Grid n × Nat × Nat)
    (j : Nat) : Grid n × Nat × Nat :=
  let r := replenishColumn (colOfN acc.1 j) acc.2.1 acc.2.2 stream
  (setColN acc.1 j r.1, r.2.1, r.2.2)

/-- The refill loops of replenishField over all columns, threading the
sprite pool and the random stream index left to right. -/
def replenishGrid {n : Nat} (g : Grid n) (pool k : Nat) (stream : Nat → Nat) :
    Grid n × Nat × Nat :=
  (List.range n).foldl (replenishGridStep stream) (g, pool, k)

/-- The holes of the first m columns together. -/
def colsHoleSum {n : Nat} (g : Grid n) (m : Nat) : Nat :=
  ((List.range m).map fun j => holesInCol (colOfN g j)).sum

/-- totalEmptySpots of replenishField: the holes of all columns. -/
def holesTotal {n : Nat} (g : Grid n) : Nat :=
  ((List.range n).map fun j => holesInCol (colOfN g j)).sum

/-- The cascade from one handleMatches call onward, each animation batch
taken as completing atomically: compute the mask, destroy the marked
tiles (adding their sprites to the pool) unless the mask is empty,
compact, then replenish — settling immediately (picking re-enabled) when
there is no hole — and re-enter handleMatches while the refilled board
still has a match.  Fuel bounds the number of passes; none means the
fuel ran out. -/
def cascade {n : Nat} (stream : Nat → Nat) :
    Nat → Grid n → Nat → Nat → Option (Grid n)
  | 0, _, _, _ => none
  | fuel + 1, g, pool, k =>
    let mask := handleMatchesMask g
    let d := destroyedCount n mask
    let g2 := if d = 0 then g else compactGrid (destroyTiles g mask)
    if holesTotal g2 = 0 then some g2
    else
      let r := replenishGrid g2 (pool + d) k stream
      if matchInBoard r.1 then cascade stream fuel r.1 r.2.1 r.2.2
      else some r.1

/-- destroyMarkedTiles with an explicit mask argument, continuing into
the cascade: an all-zero mask destroys nothing (the warned branch) and
goes straight to replenishField. -/
def destroyMarkedTilesFrom {n : Nat} (stream : Nat → Nat) (fuel : Nat)
    (g : Grid n) (mask : RemoveMap) (pool k : Nat) : Option (Grid n) :=
  let d := destroyedCount n mask
  let g2 := if d = 0 then g else compactGrid (destroyTiles g mask)
  if holesTotal g2 = 0 then some g2
  else
    let r := replenishGrid g2 (pool + d) k stream
    if matchInBoard r.1 then cascade stream fuel r.1 r.2.1 r.2.2
    else some r.1

/-- swapTiles on the grid: the two addressed slots exchange their color
payloads (the occupancy flag stays with the slot, as in the source). -/
def swapTilesG {n : Nat} (g : Grid n) (a b : Fin n × Fin n) : Grid n :=
  fun i j =>
    if (i, j) = a then { g i j with color := (g b.1 b.2).color }
    else if (i, j) = b then { g i j with color := (g a.1 a.2).color }
    else g i j

/-- A player swap resolved to the next settled state: after the swap
tween completes, a matching board enters the cascade; otherwise the swap
is reverted and, the reverted board being match-free, picking is
re-enabled on it. -/
def swapResolve {n : Nat} (stream : Nat → Nat) (fuel : Nat) (g : Grid n)
    (a b : Fin n × Fin n) (k : Nat) : Option (Grid n) :=
  let g1 := swapTilesG g a b
  if matchInBoard g1 then cascade stream fuel g1 0 k
  else
    let g2 := swapTilesG g1 a b
    if matchInBoard g2 then cascade stream fuel g2 0 k else some g2

/-- Overwrite one cell of the grid. -/
def setCell {n : Nat} (g : Grid n) (i0 j0 : Fin n) (t : Tile) : Grid n :=
  fun i j => if i = i0 ∧ j = j0 then t else g i j

/-- The do/while of create for one cell: draw a color, place the tile,
and redraw while the placement completes a backward run.  Fuel bounds
the redraws; none means the fuel ran out. -/
def genCell {n : Nat} (g : Grid n) (i0 j0 : Fin n) (stream : Nat → Nat) :
    Nat → Nat → Option (Grid n × Nat)
  | _, 0 => none
  | k, fuel + 1 =>
    let randomColor := stream k
    let g2 := setCell g i0 j0 { color := randomColor, isEmpty := false }
    if isMatch g2 i0.val j0.val then genCell g i0 j0 stream (k + 1) fuel
    else some (g2, k + 1)

/-- The inner loop of create: fill the cells of row i0 left to right. -/
def genRow {n : Nat} (i0 : Fin n) (stream : Nat → Nat) (cellFuel : Nat) :
    Nat → Nat → Grid n → Nat → Option (Grid n × Nat)
  | 0, _, g, k => some (g, k)
  | count + 1, j, g, k =>
    if h : j < n then
      match genCell g i0 ⟨j, h⟩ stream k cellFuel with
      | none => none
      | some r => genRow i0 stream cellFuel count (j + 1) r.1 r.2
    else some (g, k)

/-- The outer loop of create: fill the rows top to bottom. -/
def genRows {n : Nat} (stream : Nat → Nat) (cellFuel : Nat) :
    Nat → Nat → Grid n → Nat → Option (Grid n × Nat)
  | 0, _, g, k => some (g, k)
  | count + 1, i, g, k =>
    if h : i < n then
      match genRow ⟨i, h⟩ stream cellFuel n 0 g k with
      | none => none
      | some r => genRows stream cellFuel count (i + 1) r.1 r.2
    else some (g, k)

/-- The grid initialization of create: every cell filled row-major,
resampled until it completes no backward run. -/
def createGrid (n : Nat) (stream : Nat → Nat) (cellFuel : Nat) :
    Option (Grid n × Nat) :=
  genRows stream cellFuel n 0 (fun _ _ => { color := 0, isEmpty := false }) 0

/-- A pointer event: current position and the position of the initial
pointer-down, in pixels. -/
structure Pointer where
  x : Int
  y : Int
  downX : Int
  downY : Int
deriving DecidableEq

/-- The input-facing scene state: the picking lock, the drag flag, the
grid, the remembered selection (by position, mirroring the source's
positional tile identity) and the pending swap-tween counter. -/
structure GameState (n : Nat) where
  canPick : Bool
  dragging : Bool
  grid : Grid n
  selectedTile : Option (Fin n × Fin n)
  swappingTiles : Nat

/-- The tile size of the session configuration. -/
def tileSizeC : Int := 100

/-- Math.abs on integers. -/
def mathAbs (x : Int) : Int := if x < 0 then -x else x

/-- The position a pixel row/column pair picks, when in bounds (tileAt
applied to Math.floor(y / tileSize), Math.floor(x / tileSize)). -/
def pickAt (n : Nat) (row col : Int) : Option (Fin n × Fin n) :=
  if h : 0 ≤ row ∧ row < (n : Int) ∧ 0 ≤ col ∧ col < (n : Int) then
    some (⟨row.toNat, by omega⟩, ⟨col.toNat, by omega⟩)
  else none

/-- areNext: the two positions are grid-adjacent (Manhattan distance 1). -/
def areNextC {n : Nat} (a b : Fin n × Fin n) : Bool :=
  mathAbs ((a.1.val : Int) - (b.1.val : Int)) +
    mathAbs ((a.2.val : Int) - (b.2.val : Int)) == 1

/-- The synchronous effect of swapTiles on the scene state: the swap
counter is set to 2, picking is locked, and the grid slots exchange
payloads (the tweens complete later). -/
def startSwapTiles {n : Nat} (s : GameState n) (a b : Fin n × Fin n) :
    GameState n :=
  { s with canPick := false, swappingTiles := 2, grid := swapTilesG s.grid a b }

/-- tileSelect (the pointer-down handler): only acts when canPick holds;
sets the drag flag, picks the cell under the pointer, and either selects
it, deselects on a re-pick, swaps with an adjacent earlier selection
(which is not cleared), or replaces a non-adjacent selection. -/
def tileSelect {n : Nat} (s : GameState n) (p : Pointer) : GameState n :=
  if s.canPick then
    let s1 := { s with dragging := true }
    let row := p.y.fdiv tileSizeC
    let col := p.x.fdiv tileSizeC
    match pickAt n row col with
    | none => s1
    | some picked =>
      match s1.selectedTile with
      | none => { s1 with selectedTile := some picked }
      | some sel =>
        if picked = sel then { s1 with selectedTile := none }
        else if areNextC picked sel then startSwapTiles s1 sel picked
        else { s1 with selectedTile := some picked }
  else s

/-- The deltaCol assignments of startSwipe: the two horizontal threshold
tests, the second overwriting the first. -/
def swipeDeltaCol (deltaX deltaY : Int) : Int :=
  if deltaX < -(tileSizeC / 2) ∧ mathAbs deltaY < tileSizeC / 4 then 1
  else if deltaX > tileSizeC / 2 ∧ mathAbs deltaY < tileSizeC / 4 then -1
  else 0

/-- The deltaRow assignments of startSwipe: the two vertical threshold
tests, the second overwriting the first. -/
def swipeDeltaRow (deltaX deltaY : Int) : Int :=
  if deltaY < -(tileSizeC / 2) ∧ mathAbs deltaX < tileSizeC / 4 then 1
  else if deltaY > tileSizeC / 2 ∧ mathAbs deltaX < tileSizeC / 4 then -1
  else 0

/-- startSwipe (the pointer-move handler): only acts while dragging with
a live selection; interprets the displacement since pointer-down and,
when a direction fires and the neighbour exists, swaps with it and ends
the drag.  The source checks dragging and the selection but not canPick. -/
def startSwipe {n : Nat} (s : GameState n) (p : Pointer) : GameState n :=
  match s.selectedTile with
  | none => s
  | some sel =>
    if s.dragging then
      let deltaX := p.downX - p.x
      let deltaY := p.downY - p.y
      let deltaCol := swipeDeltaCol deltaX deltaY
      let deltaRow := swipeDeltaRow deltaX deltaY
      if deltaRow + deltaCol ≠ 0 then
        match pickAt n ((sel.1.val : Int) + deltaRow) ((sel.2.val : Int) + deltaCol) with
        | none => s
        | some picked => { startSwapTiles s sel picked with dragging := false }
      else s
    else s

/-- stopSwipe (the pointer-up handler): clears the drag flag. -/
def stopSwipe {n : Nat} (s : GameState n) : GameState n :=
  { s with dragging := false }

/-- A 4x4 grid whose top row reads colors a, a, a, b for two game palette
colors a and b; the filler colors 6 and 7 lie outside the 6-color palette
and form no run of their own. -/
def rowShapeGrid (a b : Nat) : Grid 4 :=
  gridOfRows 4
    [[⟨a, false⟩, ⟨a, false⟩, ⟨a, false⟩, ⟨b, false⟩],
     [⟨6, false⟩, ⟨7, false⟩, ⟨6, false⟩, ⟨7, false⟩],
     [⟨7, false⟩, ⟨6, false⟩, ⟨7, false⟩, ⟨6, false⟩],
     [⟨6, false⟩, ⟨7, false⟩, ⟨6, false⟩, ⟨7, false⟩]]

/-- A 5x5 grid with a horizontal run of three and a vertical run of three
of color 0 crossing at cell (2,2), and no other run. -/
def crossShapeGrid : Grid 5 :=
  gridOfRows 5
    [[⟨9, false⟩, ⟨10, false⟩, ⟨11, false⟩, ⟨12, false⟩, ⟨13, false⟩],
     [⟨10, false⟩, ⟨11, false⟩, ⟨0, false⟩, ⟨13, false⟩, ⟨9, false⟩],
     [⟨11, false⟩, ⟨0, false⟩, ⟨0, false⟩, ⟨0, false⟩, ⟨10, false⟩],
     [⟨12, false⟩, ⟨13, false⟩, ⟨0, false⟩, ⟨9, false⟩, ⟨11, false⟩],
     [⟨13, false⟩, ⟨9, false⟩, ⟨12, false⟩, ⟨10, false⟩, ⟨12, false⟩]]

/-- A settled 2x2 grid of four distinct colors (no run fits in it). -/
def smallDemoGrid : Grid 2 :=
  gridOfRows 2 [[⟨0, false⟩, ⟨1, false⟩], [⟨2, false⟩, ⟨3, false⟩]]

/-- A scene state with a swap in flight: picking locked, two swap tweens
pending, the drag flag still set and the selection still live — exactly
the state left behind by a tap-initiated swap of adjacent tiles. -/
def lockedSwapState : GameState 2 :=
  { canPick := false, dragging := true, grid := smallDemoGrid,
    selectedTile := some (0, 1), swappingTiles := 2 }

/-- A pointer-move 100 pixels left of its pointer-down (a full-tile
horizontal drag with no vertical component). -/
def leftDragPointer : Pointer := { x := 0, y := 0, downX := 100, downY := 0 }

/-- An idle scene state with nothing selected and picking locked. -/
def lockedIdleState : GameState 2 :=
  { canPick := false, dragging := false, grid := smallDemoGrid,
    selectedTile := none, swappingTiles := 0 }

/-- A column reading occupied, hole, occupied, hole from top to bottom
(the compaction test shape of the specification). -/
def fallDemoCol : List Tile := [⟨5, false⟩, ⟨1, true⟩, ⟨6, false⟩, ⟨2, true⟩]

/-- A column whose holes are not all on top: occupied, hole, occupied,
hole top to bottom, with pairwise distinct colors. -/
def mixedHoleCol : List Tile := [⟨1, false⟩, ⟨2, true⟩, ⟨3, false⟩, ⟨4, true⟩]

/-- A 2x2 grid with every cell occupied and colored 0 (2x2 is too small
for any run, so it is settled). -/
def monoDemoGrid : Grid 2 := fun _ _ => { color := 0, isEmpty := false }

/-!  General helper lemmas about the embedded operations. -/

/-- Membership in the row-major coordinate list is exactly in-bounds. -/
theorem mem_cellPairs {n : Nat} {p : Nat × Nat} :
    p ∈ cellPairs n ↔ p.1 < n ∧ p.2 < n := by
  unfold cellPairs
  simp only [List.mem_flatMap, List.mem_map, List.mem_range]
  constructor
  · rintro ⟨i, hi, j, hj, rfl⟩; exact ⟨hi, hj⟩
  · rintro ⟨h1, h2⟩; exact ⟨p.1, h1, p.2, h2, rfl⟩

/-- A mask with no positive in-bounds entry counts zero cells to destroy. -/
theorem destroyedCount_eq_zero {n : Nat} {m : RemoveMap}
    (hm : ∀ i j, i < n → j < n → m i j = 0) : destroyedCount n m = 0 := by
  unfold destroyedCount
  rw [List.countP_eq_zero]
  intro p hp
  rcases mem_cellPairs.mp hp with ⟨h1, h2⟩
  simp [hm p.1 p.2 h1 h2]

/-- Swapping the same pair of slots twice restores the original grid. -/
theorem swapTilesG_invol {n : Nat} (g : Grid n) (a b : Fin n × Fin n) :
    swapTilesG (swapTilesG g a b) a b = g := by
  funext i j
  simp only [swapTilesG]
  by_cases hia : (i, j) = a
  · subst hia
    by_cases hib : (i, j) = b
    · subst hib
      simp
    · simp [hib, Ne.symm hib]
  · by_cases hib : (i, j) = b
    · subst hib
      simp [hia, Ne.symm hia]
    · simp [hia, hib]

theorem tileAt_lt {n : Nat} (g : Grid n) {i j : Nat} (hi : i < n) (hj : j < n) :
    tileAt g i j = some (g ⟨i, hi⟩ ⟨j, hj⟩) := by
  unfold tileAt
  rw [dif_pos (by omega)]
  simp

theorem lineTile_lt {n : Nat} (g : Grid n) (dir : Nat) {i j : Nat}
    (hi : i < n) (hj : j < n) :
    lineTile g dir i j =
      some (if dir = HORIZONTAL then g ⟨i, hi⟩ ⟨j, hj⟩ else g ⟨j, hj⟩ ⟨i, hi⟩) := by
  unfold lineTile
  by_cases hd : dir = HORIZONTAL
  · rw [if_pos hd, if_pos hd, tileAt_lt g hi hj]
  · rw [if_neg hd, if_neg hd, tileAt_lt g hj hi]

theorem matchInBoard_of_isMatch {n : Nat} {g : Grid n} {i j : Nat}
    (hi : i < n) (hj : j < n) (h : isMatch g i j = true) :
    matchInBoard g = true := by
  unfold matchInBoard
  rw [List.any_eq_true]
  exact ⟨i, List.mem_range.mpr hi, List.any_eq_true.mpr ⟨j, List.mem_range.mpr hj, h⟩⟩

theorem streakInv_init {n : Nat} (g : Grid n) (dir i : Nat) :
    StreakInv g dir i 0 ⟨1, -1, 0⟩ :=
  Or.inl ⟨rfl, rfl, rfl⟩

theorem streakInv_reset {n : Nat} (g : Grid n) (dir i j : Nat) :
    StreakInv g dir i (j + 1) ⟨1, -1, j + 1⟩ :=
  Or.inl ⟨rfl, rfl, rfl⟩

theorem streakInv_step_eq {n : Nat} {g : Grid n} {dir i j : Nat} {st : StreakState}
    {t : Tile} (ht : lineTile g dir i j = some t)
    (heq : (t.color : Int) = st.currentColor) (hinv : StreakInv g dir i j st) :
    StreakInv g dir i (j + 1) ⟨st.colorStreak + 1, st.currentColor, st.startStreak⟩ := by
  rcases hinv with ⟨hc, _, _⟩ | ⟨hsum, hpos, hall⟩
  · rw [hc] at heq; omega
  · refine Or.inr ⟨?_, ?_, ?_⟩
    · show st.startStreak + (st.colorStreak + 1) = j + 1
      omega
    · show 1 ≤ st.colorStreak + 1
      omega
    · intro k hk1 hk2
      have hk1b : st.startStreak ≤ k := hk1
      have hk2b : k < j + 1 := hk2
      rcases Nat.lt_or_ge k j with h | h
      · exact hall k hk1b h
      · have hkj : k = j := by omega
        subst hkj
        exact ⟨t, ht, heq⟩

theorem streakInv_step_ne {n : Nat} {g : Grid n} {dir i j : Nat}
    {t : Tile} (ht : lineTile g dir i j = some t) :
    StreakInv g dir i (j + 1) ⟨1, (t.color : Int), j⟩ := by
  refine Or.inr ⟨rfl, le_refl 1, ?_⟩
  intro k hk1 hk2
  have hk1b : j ≤ k := hk1
  have hk2b : k < j + 1 := hk2
  have hkj : k = j := by omega
  subst hkj
  exact ⟨t, ht, rfl⟩

theorem match_of_streak {n : Nat} {g : Grid n} {dir i j : Nat} {st : StreakState}
    (hi : i < n) (hjn : j ≤ n) (hinv : StreakInv g dir i j st)
    (hs : 3 ≤ st.colorStreak) : matchInBoard g = true := by
  rcases hinv with ⟨_, hs1, _⟩ | ⟨hsum, _, hall⟩
  · omega
  · obtain ⟨t0, h0, hc0⟩ := hall st.startStreak (le_refl _) (by omega)
    obtain ⟨t1, h1, hc1⟩ := hall (st.startStreak + 1) (by omega) (by omega)
    obtain ⟨t2, h2, hc2⟩ := hall (st.startStreak + 2) (by omega) (by omega)
    have e1 : t1.color = t0.color := by omega
    have e2 : t2.color = t0.color := by omega
    have c1 : ((st.startStreak + 2 : Nat) : Int) - 1 = ((st.startStreak + 1 : Nat) : Int) := by
      push_cast; ring
    have c2 : ((st.startStreak + 2 : Nat) : Int) - 2 = ((st.startStreak : Nat) : Int) := by
      push_cast; ring
    by_cases hd : dir = HORIZONTAL
    · unfold lineTile at h0 h1 h2
      rw [if_pos hd] at h0 h1 h2
      apply matchInBoard_of_isMatch hi (show st.startStreak + 2 < n by omega)
      unfold isMatch isHorizontalMatch
      rw [c1, c2, h0, h1, h2]
      simp [e1, e2]
    · unfold lineTile at h0 h1 h2
      rw [if_neg hd] at h0 h1 h2
      apply matchInBoard_of_isMatch (show st.startStreak + 2 < n by omega) hi
      unfold isMatch isVerticalMatch
      rw [c1, c2, h0, h1, h2]
      simp [e1, e2]

theorem bump_le (m : RemoveMap) (r0 c0 r c : Nat) : m r c ≤ bump m r0 c0 r c := by
  unfold bump
  split <;> omega

theorem bumpAt_le (dir i pos : Nat) (m : RemoveMap) (r c : Nat) :
    m r c ≤ bumpAt dir i pos m r c := by
  unfold bumpAt
  split <;> apply bump_le

theorem foldl_bumpAt_le (dir i : Nat) (f : Nat → Nat) (l : List Nat) :
    ∀ (m : RemoveMap) (r c : Nat),
      m r c ≤ (l.foldl (fun acc k => bumpAt dir i (f k) acc) m) r c := by
  induction l with
  | nil => intro m r c; exact le_refl _
  | cons x xs ih =>
    intro m r c
    exact le_trans (bumpAt_le dir i (f x) m r c) (ih _ r c)

theorem flushStreak_le (dir i : Nat) (st : StreakState) (m : RemoveMap) (r c : Nat) :
    m r c ≤ flushStreak dir i st m r c := by
  unfold flushStreak
  split
  · exact foldl_bumpAt_le dir i _ _ m r c
  · exact le_refl _

theorem scanLine_le {n : Nat} (g : Grid n) (dir i : Nat) :
    ∀ (count j : Nat) (st : StreakState) (m : RemoveMap) (r c : Nat),
      m r c ≤ scanLine g dir i count j st m r c := by
  intro count
  induction count with
  | zero => intro j st m r c; exact flushStreak_le dir i st m r c
  | succ k ih =>
    intro j st m r c
    cases h : lineTile g dir i j with
    | none =>
      simp only [scanLine, h]
      exact le_trans (flushStreak_le dir i st m r c) (ih (j + 1) _ _ r c)
    | some t =>
      simp only [scanLine, h]
      by_cases heq : (t.color : Int) = st.currentColor
      · rw [if_pos heq]
        exact ih (j + 1) _ m r c
      · rw [if_neg heq]
        exact le_trans (flushStreak_le dir i st m r c) (ih (j + 1) _ _ r c)

theorem bump_pos (m : RemoveMap) (r0 c0 : Nat) : 0 < bump m r0 c0 r0 c0 := by
  simp [bump]

theorem flushStreak_pos_h {dir i : Nat} (hd : dir = HORIZONTAL)
    {st : StreakState} (hs : 3 ≤ st.colorStreak) (m : RemoveMap) :
    0 < flushStreak dir i st m i st.startStreak := by
  unfold flushStreak
  rw [if_pos hs]
  have hrw : st.colorStreak = (st.colorStreak - 1) + 1 := by omega
  rw [hrw, List.range_succ_eq_map]
  simp only [List.foldl_cons]
  refine lt_of_lt_of_le ?_ (foldl_bumpAt_le dir i _ _ _ i st.startStreak)
  unfold bumpAt
  rw [if_pos hd]
  simpa using bump_pos m i st.startStreak

theorem flushStreak_pos_v {dir i : Nat} (hd : ¬dir = HORIZONTAL)
    {st : StreakState} (hs : 3 ≤ st.colorStreak) (m : RemoveMap) :
    0 < flushStreak dir i st m st.startStreak i := by
  unfold flushStreak
  rw [if_pos hs]
  have hrw : st.colorStreak = (st.colorStreak - 1) + 1 := by omega
  rw [hrw, List.range_succ_eq_map]
  simp only [List.foldl_cons]
  refine lt_of_lt_of_le ?_ (foldl_bumpAt_le dir i _ _ _ st.startStreak i)
  unfold bumpAt
  rw [if_neg hd]
  simpa using bump_pos m st.startStreak i

theorem maskPos_mono {n : Nat} {m m2 : RemoveMap}
    (h : ∀ r c, m r c ≤ m2 r c) : MaskPos n m → MaskPos n m2 := by
  rintro ⟨r, c, hr, hc, hpos⟩
  exact ⟨r, c, hr, hc, lt_of_lt_of_le hpos (h r c)⟩

theorem maskPos_flush {n : Nat} {dir i j : Nat} {st : StreakState}
    (hi : i < n) (hj : j ≤ n)
    (hsum : st.startStreak + st.colorStreak = j) (hs : 3 ≤ st.colorStreak)
    (m : RemoveMap) : MaskPos n (flushStreak dir i st m) := by
  have hstart : st.startStreak < n := by omega
  by_cases hd : dir = HORIZONTAL
  · exact ⟨i, st.startStreak, hi, hstart, flushStreak_pos_h hd hs m⟩
  · exact ⟨st.startStreak, i, hstart, hi, flushStreak_pos_v hd hs m⟩

theorem scanLine_pos_of_streak {n : Nat} {g : Grid n} {dir i : Nat} :
    ∀ (count j : Nat) (st : StreakState) (m : RemoveMap),
      j + count = n → i < n → StreakInv g dir i j st → 3 ≤ st.colorStreak →
      MaskPos n (scanLine g dir i count j st m) := by
  intro count
  induction count with
  | zero =>
    intro j st m hcount hi hinv hs
    rcases hinv with ⟨_, hs1, _⟩ | ⟨hsum, _, _⟩
    · omega
    · exact maskPos_flush hi (by omega) hsum hs m
  | succ k ih =>
    intro j st m hcount hi hinv hs
    have hsum : st.startStreak + st.colorStreak = j := by
      rcases hinv with ⟨_, hs1, _⟩ | ⟨hsum, _, _⟩
      · omega
      · exact hsum
    have hj : j < n := by omega
    obtain ⟨t, ht⟩ : ∃ t, lineTile g dir i j = some t := by
      rw [lineTile_lt g dir hi hj]
      exact ⟨_, rfl⟩
    simp only [scanLine, ht]
    by_cases heq : (t.color : Int) = st.currentColor
    · rw [if_pos heq]
      exact ih (j + 1) _ m (by omega) hi (streakInv_step_eq ht heq hinv)
        (show 3 ≤ st.colorStreak + 1 by omega)
    · rw [if_neg heq]
      refine maskPos_mono (fun r c => scanLine_le g dir i k (j + 1) _ _ r c) ?_
      exact maskPos_flush hi (by omega) hsum hs m

theorem scanLine_pos_of_triple {n : Nat} {g : Grid n} {dir i p : Nat}
    {t0 t1 t2 : Tile}
    (ht0 : lineTile g dir i p = some t0)
    (ht1 : lineTile g dir i (p + 1) = some t1)
    (ht2 : lineTile g dir i (p + 2) = some t2)
    (he1 : t1.color = t0.color) (he2 : t2.color = t0.color)
    (hp : p + 2 < n) :
    ∀ (count j : Nat) (st : StreakState) (m : RemoveMap),
      j + count = n → i < n → StreakInv g dir i j st →
      j ≤ p + 2 →
      (p < j → st.currentColor = (t0.color : Int) ∧ j ≤ p + st.colorStreak) →
      MaskPos n (scanLine g dir i count j st m) := by
  intro count
  induction count with
  | zero =>
    intro j st m hcount hi hinv hjp hprog
    omega
  | succ k ih =>
    intro j st m hcount hi hinv hjp hprog
    have hj : j < n := by omega
    obtain ⟨t, ht⟩ : ∃ t, lineTile g dir i j = some t := by
      rw [lineTile_lt g dir hi hj]
      exact ⟨_, rfl⟩
    simp only [scanLine, ht]
    rcases Nat.lt_or_ge j p with hjlt | hjge
    · by_cases heq : (t.color : Int) = st.currentColor
      · rw [if_pos heq]
        refine ih (j + 1) _ m (by omega) hi (streakInv_step_eq ht heq hinv) (by omega) ?_
        intro hcon
        omega
      · rw [if_neg heq]
        refine ih (j + 1) _ _ (by omega) hi (streakInv_step_ne ht) (by omega) ?_
        intro hcon
        omega
    · rcases Nat.lt_or_ge j (p + 1) with hj1 | hj1
      · -- j = p
        have hjp0 : j = p := by omega
        have htt : t = t0 := by
          rw [hjp0, ht0] at ht
          exact (Option.some.injEq _ _).mp ht.symm
        by_cases heq : (t.color : Int) = st.currentColor
        · rw [if_pos heq]
          refine ih (j + 1) _ m (by omega) hi (streakInv_step_eq ht heq hinv) (by omega) ?_
          intro _
          constructor
          · show st.currentColor = (t0.color : Int)
            rw [← heq, htt]
          · show j + 1 ≤ p + (st.colorStreak + 1)
            omega
        · rw [if_neg heq]
          refine ih (j + 1) _ _ (by omega) hi (streakInv_step_ne ht) (by omega) ?_
          intro _
          constructor
          · show (t.color : Int) = (t0.color : Int)
            rw [htt]
          · show j + 1 ≤ p + 1
            omega
      · rcases Nat.lt_or_ge j (p + 2) with hj2 | hj2
        · -- j = p + 1
          have hjp1 : j = p + 1 := by omega
          obtain ⟨hcc, hlen⟩ := hprog (by omega)
          have htt : t = t1 := by
            rw [hjp1, ht1] at ht
            exact (Option.some.injEq _ _).mp ht.symm
          have heq : (t.color : Int) = st.currentColor := by
            rw [htt, he1, hcc]
          rw [if_pos heq]
          refine ih (j + 1) _ m (by omega) hi (streakInv_step_eq ht heq hinv) (by omega) ?_
          intro _
          constructor
          · show st.currentColor = (t0.color : Int)
            exact hcc
          · show j + 1 ≤ p + (st.colorStreak + 1)
            omega
        · -- j = p + 2
          have hjp2 : j = p + 2 := by omega
          obtain ⟨hcc, hlen⟩ := hprog (by omega)
          have htt : t = t2 := by
            rw [hjp2, ht2] at ht
            exact (Option.some.injEq _ _).mp ht.symm
          have heq : (t.color : Int) = st.currentColor := by
            rw [htt, he2, hcc]
          rw [if_pos heq]
          refine scanLine_pos_of_streak k (j + 1) _ m (by omega) hi
            (streakInv_step_eq ht heq hinv) (show 3 ≤ st.colorStreak + 1 by omega)

theorem markLine_pos_of_triple {n : Nat} {g : Grid n} {dir i p : Nat}
    {t0 t1 t2 : Tile}
    (ht0 : lineTile g dir i p = some t0)
    (ht1 : lineTile g dir i (p + 1) = some t1)
    (ht2 : lineTile g dir i (p + 2) = some t2)
    (he1 : t1.color = t0.color) (he2 : t2.color = t0.color)
    (hp : p + 2 < n) (hi : i < n) (m : RemoveMap) :
    MaskPos n (markLine g dir i m) := by
  unfold markLine
  refine scanLine_pos_of_triple ht0 ht1 ht2 he1 he2 hp n 0 _ m (by omega) hi
    (streakInv_init g dir i) (by omega) ?_
  intro hcon
  omega

theorem markLine_le {n : Nat} (g : Grid n) (dir i : Nat) (m : RemoveMap) (r c : Nat) :
    m r c ≤ markLine g dir i m r c :=
  scanLine_le g dir i n 0 _ m r c

theorem foldl_markLine_preserve {n : Nat} {g : Grid n} {dir : Nat} (l : List Nat) :
    ∀ m : RemoveMap, MaskPos n m →
      MaskPos n (l.foldl (fun acc i => markLine g dir i acc) m) := by
  induction l with
  | nil => intro m hm; exact hm
  | cons x xs ih =>
    intro m hm
    exact ih _ (maskPos_mono (fun r c => markLine_le g dir x m r c) hm)

theorem foldl_markLine_pos {n : Nat} {g : Grid n} {dir : Nat} {i : Nat} (l : List Nat)
    (hmem : i ∈ l) (hcreate : ∀ m : RemoveMap, MaskPos n (markLine g dir i m)) :
    ∀ m : RemoveMap, MaskPos n (l.foldl (fun acc x => markLine g dir x acc) m) := by
  induction l with
  | nil => cases hmem
  | cons x xs ih =>
    intro m
    rcases List.mem_cons.mp hmem with hx | hx
    · subst hx
      exact foldl_markLine_preserve xs _ (hcreate m)
    · exact ih hx _

theorem markMatches_pos_of_triple {n : Nat} {g : Grid n} {dir i p : Nat}
    {t0 t1 t2 : Tile}
    (ht0 : lineTile g dir i p = some t0)
    (ht1 : lineTile g dir i (p + 1) = some t1)
    (ht2 : lineTile g dir i (p + 2) = some t2)
    (he1 : t1.color = t0.color) (he2 : t2.color = t0.color)
    (hp : p + 2 < n) (hi : i < n) (m : RemoveMap) :
    MaskPos n (markMatches g dir m) := by
  unfold markMatches
  exact foldl_markLine_pos (List.range n) (List.mem_range.mpr hi)
    (fun m2 => markLine_pos_of_triple ht0 ht1 ht2 he1 he2 hp hi m2) m

theorem markMatches_preserve {n : Nat} {g : Grid n} {dir : Nat} {m : RemoveMap}
    (hm : MaskPos n m) : MaskPos n (markMatches g dir m) :=
  foldl_markLine_preserve (List.range n) m hm

theorem flushStreak_cases (dir i : Nat) (st : StreakState) (m : RemoveMap) (r c : Nat) :
    flushStreak dir i st m r c = m r c ∨ 3 ≤ st.colorStreak := by
  unfold flushStreak
  split
  · right; assumption
  · left; rfl

theorem scanLine_sound {n : Nat} {g : Grid n} {dir i : Nat} :
    ∀ (count j : Nat) (st : StreakState) (m : RemoveMap) (r c : Nat),
      j + count = n → i < n → StreakInv g dir i j st →
      0 < scanLine g dir i count j st m r c →
      0 < m r c ∨ matchInBoard g = true := by
  intro count
  induction count with
  | zero =>
    intro j st m r c hcount hi hinv hpos
    simp only [scanLine] at hpos
    rcases flushStreak_cases dir i st m r c with hcase | hcase
    · left
      rw [hcase] at hpos
      exact hpos
    · right
      exact match_of_streak hi (by omega) hinv hcase
  | succ k ih =>
    intro j st m r c hcount hi hinv hpos
    have hflush : ∀ m2 : RemoveMap, 0 < flushStreak dir i st m2 r c →
        0 < m2 r c ∨ matchInBoard g = true := by
      intro m2 h2
      rcases flushStreak_cases dir i st m2 r c with hcase | hcase
      · left
        rw [hcase] at h2
        exact h2
      · right
        exact match_of_streak hi (by omega) hinv hcase
    revert hpos
    cases ht : lineTile g dir i j with
    | none =>
      simp only [scanLine, ht]
      intro hpos
      rcases ih (j + 1) _ _ r c (by omega) hi (streakInv_reset g dir i j) hpos with h | h
      · exact hflush m h
      · right; exact h
    | some t =>
      simp only [scanLine, ht]
      by_cases heq : (t.color : Int) = st.currentColor
      · rw [if_pos heq]
        intro hpos
        exact ih (j + 1) _ m r c (by omega) hi (streakInv_step_eq ht heq hinv) hpos
      · rw [if_neg heq]
        intro hpos
        rcases ih (j + 1) _ _ r c (by omega) hi (streakInv_step_ne ht) hpos with h | h
        · exact hflush m h
        · right; exact h

theorem markLine_sound {n : Nat} {g : Grid n} {dir i : Nat} (hi : i < n)
    {m : RemoveMap} {r c : Nat} (hpos : 0 < markLine g dir i m r c) :
    0 < m r c ∨ matchInBoard g = true :=
  scanLine_sound n 0 _ m r c (by omega) hi (streakInv_init g dir i) hpos

theorem foldl_markLine_sound {n : Nat} {g : Grid n} {dir : Nat} :
    ∀ (l : List Nat), (∀ x ∈ l, x < n) →
      ∀ (m : RemoveMap) (r c : Nat),
        0 < (l.foldl (fun acc x => markLine g dir x acc) m) r c →
        0 < m r c ∨ matchInBoard g = true := by
  intro l
  induction l with
  | nil =>
    intro _ m r c hpos
    left; exact hpos
  | cons x xs ih =>
    intro hbound m r c hpos
    rcases ih (fun y hy => hbound y (List.mem_cons_of_mem x hy)) _ r c hpos with h | h
    · exact markLine_sound (hbound x (List.mem_cons_self x xs)) h
    · right; exact h

theorem markMatches_sound {n : Nat} {g : Grid n} {dir : Nat}
    {m : RemoveMap} {r c : Nat} (hpos : 0 < markMatches g dir m r c) :
    0 < m r c ∨ matchInBoard g = true :=
  foldl_markLine_sound (List.range n) (fun x hx => List.mem_range.mp hx) m r c hpos

theorem tileAt_bounds {n : Nat} {g : Grid n} {row col : Int} {t : Tile}
    (h : tileAt g row col = some t) :
    0 ≤ row ∧ row < (n : Int) ∧ 0 ≤ col ∧ col < (n : Int) := by
  unfold tileAt at h
  split at h
  · assumption
  · cases h

theorem horiz_triple {n : Nat} {g : Grid n} {i j : Nat}
    (h : isHorizontalMatch g i j = true) :
    ∃ (p : Nat) (t0 t1 t2 : Tile),
      lineTile g HORIZONTAL i p = some t0 ∧
      lineTile g HORIZONTAL i (p + 1) = some t1 ∧
      lineTile g HORIZONTAL i (p + 2) = some t2 ∧
      t1.color = t0.color ∧ t2.color = t0.color ∧ p + 2 < n ∧ i < n := by
  unfold isHorizontalMatch at h
  cases h0 : tileAt g i j with
  | none => rw [h0] at h; cases h
  | some a0 =>
    cases h1 : tileAt g i ((j : Int) - 1) with
    | none => rw [h0, h1] at h; cases h
    | some a1 =>
      cases h2 : tileAt g i ((j : Int) - 2) with
      | none => rw [h0, h1, h2] at h; cases h
      | some a2 =>
        simp only [h0, h1, h2, Bool.and_eq_true, beq_iff_eq] at h
        obtain ⟨hb0a, hb0b, hb0c, hb0d⟩ := tileAt_bounds h0
        obtain ⟨hb2a, hb2b, hb2c, hb2d⟩ := tileAt_bounds h2
        refine ⟨j - 2, a2, a1, a0, ?_, ?_, ?_, ?_, ?_, ?_, ?_⟩
        · unfold lineTile
          rw [if_pos rfl, show ((j - 2 : Nat) : Int) = (j : Int) - 2 from by omega]
          exact h2
        · unfold lineTile
          rw [if_pos rfl, show ((j - 2 + 1 : Nat) : Int) = (j : Int) - 1 from by omega]
          exact h1
        · unfold lineTile
          rw [if_pos rfl, show ((j - 2 + 2 : Nat) : Int) = (j : Int) from by omega]
          exact h0
        · rw [h.1, h.2]
        · rw [h.2]
        · omega
        · omega

theorem vert_triple {n : Nat} {g : Grid n} {i j : Nat}
    (h : isVerticalMatch g i j = true) :
    ∃ (p : Nat) (t0 t1 t2 : Tile),
      lineTile g VERTICAL j p = some t0 ∧
      lineTile g VERTICAL j (p + 1) = some t1 ∧
      lineTile g VERTICAL j (p + 2) = some t2 ∧
      t1.color = t0.color ∧ t2.color = t0.color ∧ p + 2 < n ∧ j < n := by
  unfold isVerticalMatch at h
  cases h0 : tileAt g i j with
  | none => rw [h0] at h; cases h
  | some a0 =>
    cases h1 : tileAt g ((i : Int) - 1) j with
    | none => rw [h0, h1] at h; cases h
    | some a1 =>
      cases h2 : tileAt g ((i : Int) - 2) j with
      | none => rw [h0, h1, h2] at h; cases h
      | some a2 =>
        simp only [h0, h1, h2, Bool.and_eq_true, beq_iff_eq] at h
        obtain ⟨hb0a, hb0b, hb0c, hb0d⟩ := tileAt_bounds h0
        obtain ⟨hb2a, hb2b, hb2c, hb2d⟩ := tileAt_bounds h2
        refine ⟨i - 2, a2, a1, a0, ?_, ?_, ?_, ?_, ?_, ?_, ?_⟩
        · unfold lineTile
          rw [if_neg (by decide), show ((i - 2 : Nat) : Int) = (i : Int) - 2 from by omega]
          exact h2
        · unfold lineTile
          rw [if_neg (by decide), show ((i - 2 + 1 : Nat) : Int) = (i : Int) - 1 from by omega]
          exact h1
        · unfold lineTile
          rw [if_neg (by decide), show ((i - 2 + 2 : Nat) : Int) = (i : Int) from by omega]
          exact h0
        · rw [h.1, h.2]
        · rw [h.2]
        · omega
        · omega

theorem matchInBoard_iff_maskPos {n : Nat} (g : Grid n) :
    matchInBoard g = true ↔ MaskPos n (handleMatchesMask g) := by
  constructor
  · intro h
    unfold matchInBoard at h
    rw [List.any_eq_true] at h
    obtain ⟨i, hiR, h⟩ := h
    rw [List.any_eq_true] at h
    obtain ⟨j, hjR, h⟩ := h
    unfold isMatch at h
    rw [Bool.or_eq_true] at h
    unfold handleMatchesMask
    rcases h with h | h
    · obtain ⟨p, t0, t1, t2, ht0, ht1, ht2, he1, he2, hp, hiN⟩ := horiz_triple h
      exact markMatches_preserve
        (markMatches_pos_of_triple ht0 ht1 ht2 he1 he2 hp hiN zeroMap)
    · obtain ⟨p, t0, t1, t2, ht0, ht1, ht2, he1, he2, hp, hjN⟩ := vert_triple h
      exact markMatches_pos_of_triple ht0 ht1 ht2 he1 he2 hp hjN _
  · rintro ⟨r, c, hr, hc, hpos⟩
    unfold handleMatchesMask at hpos
    rcases markMatches_sound hpos with h2 | h2
    · rcases markMatches_sound h2 with h3 | h3
      · cases h3
      · exact h3
    · exact h2

theorem countP_take_le (l : List Tile) (k : Nat) (p : Tile → Bool) :
    (l.take k).countP p ≤ k :=
  le_trans (List.countP_le_length p) (by simp)

theorem cnt_split (l : List Tile) (a b : Nat) (hab : a ≤ b) (p : Tile → Bool) :
    (l.drop a).countP p = ((l.drop a).take (b - a)).countP p + (l.drop b).countP p := by
  conv_lhs => rw [← List.take_append_drop (b - a) (l.drop a)]
  rw [List.countP_append, List.drop_drop, show a + (b - a) = b from by omega]

theorem cnt_cons (l : List Tile) (a : Nat) (ha : a < l.length) (p : Tile → Bool) :
    (l.drop a).countP p =
      (l.drop (a + 1)).countP p + if p (l.getD a emptyTile) then 1 else 0 := by
  rw [List.drop_eq_getElem_cons ha, List.countP_cons, List.getD_eq_getElem l emptyTile ha]

theorem holesBelow_dest_mono {col : List Tile} {p q : Nat} (hpq : p < q)
    (hq : q < col.length) (hocc : (col.getD q emptyTile).isEmpty = false) :
    p + holesBelow col p < q + holesBelow col q := by
  unfold holesBelow
  have hsplit := cnt_split col (p + 1) q (by omega) (fun t => t.isEmpty)
  have hcons := cnt_cons col q hq (fun t => t.isEmpty)
  simp only [hocc] at hcons
  have htake := countP_take_le (col.drop (p + 1)) (q - (p + 1)) (fun t => t.isEmpty)
  simp at hcons
  omega

theorem getD_drop (s : List Tile) (m q : Nat) (h : m + q < s.length) :
    (s.drop m).getD q emptyTile = s.getD (m + q) emptyTile := by
  rw [List.getD_eq_getElem _ _ (show q < (s.drop m).length by simp; omega),
    List.getD_eq_getElem _ _ h]
  exact List.getElem_drop s

theorem countP_eq_of_char : ∀ (s : List Tile) (k : Nat), k ≤ s.length →
    (∀ q, q < s.length → ((s.getD q emptyTile).isEmpty = true ↔ q < k)) →
    (s.countP fun t => t.isEmpty) = k := by
  intro s
  induction s with
  | nil =>
    intro k hk _
    simp at hk
    simp [hk]
  | cons x xs ih =>
    intro k hk hchar
    rw [List.countP_cons]
    cases k with
    | zero =>
      have hx : x.isEmpty = false := by
        have h0 := hchar 0 (by simp)
        simp [List.getD_cons_zero] at h0
        exact h0
      have hxs : (xs.countP fun t => t.isEmpty) = 0 := by
        refine ih 0 (by omega) ?_
        intro q hq
        have hq1 := hchar (q + 1) (by simp; omega)
        rw [List.getD_cons_succ] at hq1
        simpa using hq1
      simp [hxs, hx]
    | succ k2 =>
      have hx : x.isEmpty = true := by
        have h0 := hchar 0 (by simp)
        simp [List.getD_cons_zero] at h0
        exact h0
      have hxs : (xs.countP fun t => t.isEmpty) = k2 := by
        refine ih k2 (by simp at hk; omega) ?_
        intro q hq
        have hq1 := hchar (q + 1) (by simp; omega)
        rw [List.getD_cons_succ] at hq1
        simpa using hq1
      rw [hxs, hx]
      simp

theorem getD_set_ne (l : List Tile) {i j : Nat} (a : Tile) (h : i ≠ j) :
    (l.set i a).getD j emptyTile = l.getD j emptyTile := by
  rw [List.getD_eq_getD_get?, List.getD_eq_getD_get?, List.get?_eq_getElem?,
    List.get?_eq_getElem?, List.getElem?_set_ne h]

theorem getD_set_self (l : List Tile) {i : Nat} (a : Tile) (h : i < l.length) :
    (l.set i a).getD i emptyTile = a := by
  rw [List.getD_eq_getD_get?, List.get?_eq_getElem?, List.getElem?_set_eq_of_lt a h]
  rfl

theorem compactStep_empty {s : List Tile} {i : Nat}
    (h : (s.getD i emptyTile).isEmpty = true) : compactStep s i = s := by
  simp only [compactStep]
  rw [h]
  simp

theorem compactStep_occ_zero {s : List Tile} {i : Nat}
    (h : (s.getD i emptyTile).isEmpty = false) (hf : holesBelow s i = 0) :
    compactStep s i = s := by
  simp only [compactStep]
  rw [h, hf]
  simp

theorem compactStep_occ_pos {s : List Tile} {i : Nat}
    (h : (s.getD i emptyTile).isEmpty = false) (hf : 0 < holesBelow s i) :
    compactStep s i =
      (s.set (i + holesBelow s i) (s.getD i emptyTile)).set i emptyTile := by
  simp only [compactStep]
  rw [h]
  simp only [Bool.false_eq_true, if_false]
  rw [if_pos hf]

theorem compactInv_step {col s : List Tile} {i : Nat}
    (hlen : i < col.length) (hinv : CompactInv col (i + 1) s) :
    CompactInv col i (compactStep s i) := by
  obtain ⟨hL, hP, hH, hD⟩ := hinv
  have hsi : s.getD i emptyTile = col.getD i emptyTile := hP i (by omega)
  have hcons := cnt_cons col i hlen (fun t => t.isEmpty)
  by_cases hei : (col.getD i emptyTile).isEmpty = true
  · -- a hole at row i: the step is a no-op
    rw [compactStep_empty (by rw [hsi]; exact hei)]
    simp only [hei, if_pos] at hcons
    refine ⟨hL, fun r hr => hP r (by omega), ?_, ?_⟩
    · intro q hq1 hq2
      rcases Nat.eq_or_lt_of_le hq1 with hq | hq
      · subst hq
        rw [hsi, hei]
        simp only [true_iff]
        omega
      · rw [hcons]
        have hq2b := hH q hq hq2
        rw [hq2b]
        omega
    · intro p hp1 hp2 hocc
      rcases Nat.eq_or_lt_of_le hp1 with hp | hp
      · exfalso
        subst hp
        rw [hocc] at hei
        cases hei
      · exact hD p hp hp2 hocc
  · have heiF : (col.getD i emptyTile).isEmpty = false := by
      cases h2 : (col.getD i emptyTile).isEmpty
      · rfl
      · exact absurd h2 hei
    simp only [heiF] at hcons
    simp only [Bool.false_eq_true, if_false, Nat.add_zero] at hcons
    have hbound : ((col.drop (i + 1)).countP fun t => t.isEmpty) ≤ col.length - (i + 1) := by
      have hc := List.countP_le_length (fun t => t.isEmpty) (l := col.drop (i + 1))
      simp at hc
      omega
    have hf : holesBelow s i = (col.drop (i + 1)).countP fun t => t.isEmpty := by
      unfold holesBelow
      refine countP_eq_of_char (s.drop (i + 1)) _ (by simp; omega) ?_
      intro q hq
      have hq2 : i + 1 + q < col.length := by
        simp [hL] at hq
        omega
      rw [getD_drop s (i + 1) q (by omega)]
      rw [hH (i + 1 + q) (by omega) hq2]
      omega
    have hbci : holesBelow col i = (col.drop (i + 1)).countP fun t => t.isEmpty := rfl
    by_cases hfz : holesBelow s i = 0
    · rw [compactStep_occ_zero (by rw [hsi]; exact heiF) hfz]
      have h2z : ((col.drop (i + 1)).countP fun t => t.isEmpty) = 0 := by omega
      refine ⟨hL, fun r hr => hP r (by omega), ?_, ?_⟩
      · intro q hq1 hq2
        rcases Nat.eq_or_lt_of_le hq1 with hq | hq
        · subst hq
          rw [hsi, heiF, hcons, h2z]
          simp
        · have hq2b := hH q hq hq2
          rw [h2z] at hq2b
          rw [hq2b, hcons, h2z]
          omega
      · intro p hp1 hp2 hocc
        rcases Nat.eq_or_lt_of_le hp1 with hp | hp
        · subst hp
          rw [hbci, h2z, Nat.add_zero]
          exact hsi
        · exact hD p hp hp2 hocc
    · have hfpos : 0 < holesBelow s i := Nat.pos_of_ne_zero hfz
      have hcpos : 0 < (col.drop (i + 1)).countP fun t => t.isEmpty := by omega
      rw [compactStep_occ_pos (by rw [hsi]; exact heiF) hfpos, hsi, hf]
      have hiH2 : i + ((col.drop (i + 1)).countP fun t => t.isEmpty) < col.length := by
        omega
      have hLs : (s.set (i + ((col.drop (i + 1)).countP fun t => t.isEmpty))
          (col.getD i emptyTile)).length = col.length := by
        rw [List.length_set, hL]
      refine ⟨?_, ?_, ?_, ?_⟩
      · rw [List.length_set, List.length_set, hL]
      · intro r hr
        rw [getD_set_ne _ _ (by omega), getD_set_ne _ _ (by omega)]
        exact hP r (by omega)
      · intro q hq1 hq2
        rcases Nat.eq_or_lt_of_le hq1 with hq | hq
        · subst hq
          rw [getD_set_self _ _ (by rw [hLs]; omega)]
          refine ⟨fun _ => ?_, fun _ => rfl⟩
          rw [hcons]
          omega
        · rw [getD_set_ne _ _ (by omega)]
          by_cases hqf : q = i + ((col.drop (i + 1)).countP fun t => t.isEmpty)
          · subst hqf
            rw [getD_set_self _ _ (by rw [hL]; omega), heiF, hcons]
            simp
          · rw [getD_set_ne _ _ (by omega)]
            have hq2b := hH q (by omega) hq2
            rw [hq2b, hcons]
            omega
      · intro p hp1 hp2 hocc
        rcases Nat.eq_or_lt_of_le hp1 with hp | hp
        · subst hp
          rw [hbci, getD_set_ne _ _ (by omega), getD_set_self _ _ (by rw [hL]; omega)]
        · have hmono := holesBelow_dest_mono hp hp2 hocc
          rw [hbci] at hmono
          rw [getD_set_ne _ _ (by omega), getD_set_ne _ _ (by omega)]
          exact hD p hp hp2 hocc

theorem compactInv_fold {col : List Tile} :
    ∀ (k : Nat) (s : List Tile), k ≤ col.length - 1 → CompactInv col k s →
      CompactInv col 0 (((List.range k).reverse).foldl compactStep s) := by
  intro k
  induction k with
  | zero =>
    intro s _ h
    simpa using h
  | succ k2 ih =>
    intro s hk h
    rw [List.range_succ, List.reverse_append]
    simp only [List.reverse_cons, List.reverse_nil, List.nil_append, List.singleton_append]
    rw [List.foldl_cons]
    exact ih _ (by omega) (compactInv_step (by omega) h)

theorem compactColumn_spec (col : List Tile) : CompactInv col 0 (compactColumn col) := by
  unfold compactColumn
  rcases Nat.eq_zero_or_pos col.length with h0 | hpos
  · rw [h0]
    simp only [Nat.zero_sub, List.range_zero, List.reverse_nil, List.foldl_nil]
    refine ⟨rfl, fun r hr => rfl, ?_, ?_⟩
    · intro q _ hq2
      omega
    · intro p _ hp2 _
      omega
  · refine compactInv_fold (col.length - 1) col (by omega) ⟨rfl, fun r _ => rfl, ?_, ?_⟩
    · intro q hq1 hq2
      have hq : q = col.length - 1 := by omega
      subst hq
      have hcons := cnt_cons col (col.length - 1) (by omega) (fun t => t.isEmpty)
      rw [show col.length - 1 + 1 = col.length from by omega, List.drop_length] at hcons
      simp only [List.countP_nil, Nat.zero_add] at hcons
      rw [hcons]
      cases hlast : (col.getD (col.length - 1) emptyTile).isEmpty
      · simp [hlast]
      · simp [hlast]
    · intro p hp1 hp2 hocc
      have hp : p = col.length - 1 := by omega
      subst hp
      have hhb : holesBelow col (col.length - 1) = 0 := by
        unfold holesBelow
        rw [show col.length - 1 + 1 = col.length from by omega, List.drop_length]
        rfl
      rw [hhb, Nat.add_zero]

theorem compactColumn_length (col : List Tile) :
    (compactColumn col).length = col.length :=
  (compactColumn_spec col).1

theorem compactColumn_char (col : List Tile) {q : Nat} (hq : q < col.length) :
    (((compactColumn col).getD q emptyTile).isEmpty = true ↔ q < holesInCol col) := by
  have h := (compactColumn_spec col).2.2.1 q (by omega) hq
  rwa [List.drop_zero, Nat.zero_add] at h

theorem compactColumn_dest (col : List Tile) {p : Nat} (hp : p < col.length)
    (hocc : (col.getD p emptyTile).isEmpty = false) :
    (compactColumn col).getD (p + holesBelow col p) emptyTile = col.getD p emptyTile :=
  (compactColumn_spec col).2.2.2 p (by omega) hp hocc

theorem compactColumn_holes (col : List Tile) :
    holesInCol (compactColumn col) = holesInCol col := by
  unfold holesInCol
  refine countP_eq_of_char (compactColumn col) (holesInCol col) ?_ ?_
  · rw [compactColumn_length]
    exact List.countP_le_length _
  · intro q hq
    rw [compactColumn_length] at hq
    exact compactColumn_char col hq

theorem replenishSlot_zero (stream : Nat → Nat) (acc : List Tile × Nat × Nat)
    (i : Nat) (h : acc.2.1 = 0) : replenishSlot stream acc i = (acc.1, 0, acc.2.2 + 1) := by
  simp only [replenishSlot, h]

theorem replenishSlot_succ (stream : Nat → Nat) (acc : List Tile × Nat × Nat)
    (i : Nat) {p : Nat} (h : acc.2.1 = p + 1) :
    replenishSlot stream acc i =
      (acc.1.set i { color := stream acc.2.2, isEmpty := false }, p, acc.2.2 + 1) := by
  simp only [replenishSlot, h]

theorem replenishFold_spec (stream : Nat → Nat) :
    ∀ (e : Nat) (col : List Tile) (pool k : Nat),
      (((List.range e).foldl (replenishSlot stream) (col, pool, k)).1.length
          = col.length) ∧
      (∀ q, e ≤ q →
        ((List.range e).foldl (replenishSlot stream) (col, pool, k)).1.getD q emptyTile
          = col.getD q emptyTile) ∧
      (e ≤ pool → e ≤ col.length →
        (∀ q, q < e →
          ((List.range e).foldl (replenishSlot stream) (col, pool, k)).1.getD q emptyTile
            = { color := stream (k + q), isEmpty := false }) ∧
        ((List.range e).foldl (replenishSlot stream) (col, pool, k)).2.1 = pool - e ∧
        ((List.range e).foldl (replenishSlot stream) (col, pool, k)).2.2 = k + e) := by
  intro e
  induction e with
  | zero =>
    intro col pool k
    refine ⟨rfl, fun q _ => rfl, fun _ _ => ⟨fun q hq => by omega, rfl, rfl⟩⟩
  | succ e2 ih =>
    intro col pool k
    obtain ⟨ihL, ihU, ihF⟩ := ih col pool k
    rw [List.range_succ, List.foldl_append, List.foldl_cons, List.foldl_nil]
    cases hpool : ((List.range e2).foldl (replenishSlot stream) (col, pool, k)).2.1 with
    | zero =>
      rw [replenishSlot_zero stream _ _ hpool]
      refine ⟨ihL, fun q hq => ihU q (by omega), ?_⟩
      intro hp hl
      obtain ⟨_, ihFb, _⟩ := ihF (by omega) (by omega)
      omega
    | succ p =>
      rw [replenishSlot_succ stream _ _ hpool]
      refine ⟨?_, ?_, ?_⟩
      · rw [List.length_set]
        exact ihL
      · intro q hq
        rw [getD_set_ne _ _ (by omega)]
        exact ihU q (by omega)
      · intro hp hl
        obtain ⟨ihFa, ihFb, ihFc⟩ := ihF (by omega) (by omega)
        refine ⟨?_, ?_, ?_⟩
        · intro q hq
          rcases Nat.lt_or_ge q e2 with h2 | h2
          · rw [getD_set_ne _ _ (by omega)]
            exact ihFa q h2
          · have hqe : q = e2 := by omega
            subst hqe
            rw [getD_set_self _ _ (by rw [ihL]; omega), ihFc]
        · show p = pool - (e2 + 1)
          omega
        · show (List.foldl (replenishSlot stream) (col, pool, k) (List.range e2)).2.2 + 1
            = k + (e2 + 1)
          omega

theorem holesInCol_le (col : List Tile) : holesInCol col ≤ col.length :=
  List.countP_le_length _

theorem replenishColumn_length (col : List Tile) (pool k : Nat) (stream : Nat → Nat) :
    (replenishColumn col pool k stream).1.length = col.length :=
  (replenishFold_spec stream (holesInCol col) col pool k).1

theorem replenishColumn_unchanged (col : List Tile) (pool k : Nat)
    (stream : Nat → Nat) {q : Nat} (hq : holesInCol col ≤ q) :
    (replenishColumn col pool k stream).1.getD q emptyTile = col.getD q emptyTile :=
  (replenishFold_spec stream (holesInCol col) col pool k).2.1 q hq

theorem replenishColumn_filled (col : List Tile) {pool : Nat} (k : Nat)
    (stream : Nat → Nat) (hp : holesInCol col ≤ pool) {q : Nat}
    (hq : q < holesInCol col) :
    (replenishColumn col pool k stream).1.getD q emptyTile
      = { color := stream (k + q), isEmpty := false } :=
  ((replenishFold_spec stream (holesInCol col) col pool k).2.2 hp
    (holesInCol_le col)).1 q hq

theorem replenishColumn_pool (col : List Tile) {pool : Nat} (k : Nat)
    (stream : Nat → Nat) (hp : holesInCol col ≤ pool) :
    (replenishColumn col pool k stream).2.1 = pool - holesInCol col :=
  ((replenishFold_spec stream (holesInCol col) col pool k).2.2 hp
    (holesInCol_le col)).2.1

theorem replenishColumn_full (col : List Tile) {pool : Nat} (k : Nat)
    (stream : Nat → Nat)
    (hchar : ∀ q, q < col.length →
      ((col.getD q emptyTile).isEmpty = true ↔ q < holesInCol col))
    (hp : holesInCol col ≤ pool) {q : Nat} (hq : q < col.length) :
    ((replenishColumn col pool k stream).1.getD q emptyTile).isEmpty = false := by
  rcases Nat.lt_or_ge q (holesInCol col) with h2 | h2
  · rw [replenishColumn_filled col k stream hp h2]
  · rw [replenishColumn_unchanged col pool k stream h2]
    cases h3 : (col.getD q emptyTile).isEmpty
    · rfl
    · exact absurd ((hchar q hq).mp h3) (by omega)

theorem colOfN_length {n : Nat} (g : Grid n) (j : Nat) : (colOfN g j).length = n := by
  simp [colOfN]

theorem colOfN_getD {n : Nat} (g : Grid n) {j i : Nat} (hj : j < n) (hi : i < n) :
    (colOfN g j).getD i emptyTile = g ⟨i, hi⟩ ⟨j, hj⟩ := by
  rw [List.getD_eq_getElem _ _ (show i < (colOfN g j).length by rw [colOfN_length]; omega)]
  simp [colOfN, hj]

theorem colOfN_congr {n : Nat} {g1 g2 : Grid n} {j : Nat}
    (h : ∀ (i : Fin n) (hj : j < n), g1 i ⟨j, hj⟩ = g2 i ⟨j, hj⟩) :
    colOfN g1 j = colOfN g2 j := by
  unfold colOfN
  congr 1
  funext i
  by_cases hj : j < n
  · rw [dif_pos hj, dif_pos hj, h i hj]
  · rw [dif_neg hj, dif_neg hj]

theorem setColN_same {n : Nat} (g : Grid n) (j0 : Nat) (col : List Tile)
    (i j : Fin n) (h : j.val = j0) :
    setColN g j0 col i j = col.getD i.val emptyTile := by
  simp [setColN, h]

theorem setColN_other {n : Nat} (g : Grid n) (j0 : Nat) (col : List Tile)
    (i j : Fin n) (h : j.val ≠ j0) : setColN g j0 col i j = g i j := by
  simp [setColN, h]

theorem colsHoleSum_succ {n : Nat} (g : Grid n) (m : Nat) :
    colsHoleSum g (m + 1) = colsHoleSum g m + holesInCol (colOfN g m) := by
  unfold colsHoleSum
  rw [List.range_succ, List.map_append, List.sum_append]
  simp

theorem replenishGridFold_spec {n : Nat} (stream : Nat → Nat) :
    ∀ (m : Nat) (g : Grid n) (pool k : Nat), m ≤ n →
      (∀ j q : Nat, j < n → q < n →
        (((colOfN g j).getD q emptyTile).isEmpty = true ↔ q < holesInCol (colOfN g j))) →
      colsHoleSum g m ≤ pool →
      (∀ i j : Fin n, j.val < m →
        ((((List.range m).foldl (replenishGridStep stream) (g, pool, k)).1 i j).isEmpty
          = false)) ∧
      (∀ i j : Fin n, m ≤ j.val →
        ((List.range m).foldl (replenishGridStep stream) (g, pool, k)).1 i j = g i j) ∧
      ((List.range m).foldl (replenishGridStep stream) (g, pool, k)).2.1
        = pool - colsHoleSum g m := by
  intro m
  induction m with
  | zero =>
    intro g pool k _ _ _
    exact ⟨fun i j h => absurd h (by omega), fun i j _ => rfl, by simp [colsHoleSum]⟩
  | succ m2 ih =>
    intro g pool k hm hchar hpool
    have hsum := colsHoleSum_succ g m2
    obtain ⟨ihA, ihB, ihC⟩ := ih g pool k (by omega) hchar (by omega)
    rw [List.range_succ, List.foldl_append, List.foldl_cons, List.foldl_nil]
    simp only [replenishGridStep]
    have hcol : colOfN ((List.range m2).foldl (replenishGridStep stream) (g, pool, k)).1 m2
        = colOfN g m2 :=
      colOfN_congr (fun i hj => ihB i ⟨m2, hj⟩ (le_refl _))
    rw [hcol, ihC]
    have hpm : holesInCol (colOfN g m2) ≤ pool - colsHoleSum g m2 := by omega
    refine ⟨?_, ?_, ?_⟩
    · intro i j hj
      rcases Nat.lt_or_ge j.val m2 with h2 | h2
      · rw [setColN_other _ _ _ _ _ (by omega)]
        exact ihA i j h2
      · have hj2 : j.val = m2 := by omega
        rw [setColN_same _ _ _ _ _ hj2]
        refine replenishColumn_full (colOfN g m2) _ stream ?_ hpm ?_
        · intro q hq
          rw [colOfN_length] at hq
          exact hchar m2 q (by omega) hq
        · rw [colOfN_length]
          exact i.isLt
    · intro i j hj
      rw [setColN_other _ _ _ _ _ (by omega)]
      exact ihB i j (by omega)
    · rw [replenishColumn_pool _ _ _ hpm, hsum]
      omega

theorem replenishGrid_full {n : Nat} (g : Grid n) (pool k : Nat) (stream : Nat → Nat)
    (hchar : ∀ j q : Nat, j < n → q < n →
      (((colOfN g j).getD q emptyTile).isEmpty = true ↔ q < holesInCol (colOfN g j)))
    (hpool : holesTotal g ≤ pool) :
    ∀ i j : Fin n, (((replenishGrid g pool k stream).1 i j).isEmpty = false) := by
  intro i j
  have hs := replenishGridFold_spec stream n g pool k (le_refl n) hchar hpool
  exact hs.1 i j j.isLt

theorem list_sum_range (f : Nat → Nat) : ∀ m : Nat,
    ((List.range m).map f).sum = ∑ i in Finset.range m, f i := by
  intro m
  induction m with
  | zero => simp
  | succ m2 ih =>
    rw [List.range_succ, List.map_append, List.sum_append, Finset.sum_range_succ, ih]
    simp

theorem countP_range_eq_sum (q : Nat → Bool) : ∀ m : Nat,
    (List.range m).countP q = ∑ i in Finset.range m, if q i then 1 else 0 := by
  intro m
  induction m with
  | zero => simp
  | succ m2 ih =>
    rw [List.range_succ, List.countP_append, Finset.sum_range_succ, ih]
    simp [List.countP_cons]

theorem double_count_comm (P : Nat → Nat → Bool) (n : Nat) :
    ((List.range n).map (fun i => (List.range n).countP fun j => P i j)).sum
      = ((List.range n).map (fun j => (List.range n).countP fun i => P i j)).sum := by
  rw [list_sum_range, list_sum_range]
  rw [Finset.sum_congr rfl (fun i _ => countP_range_eq_sum (fun j => P i j) n)]
  rw [Finset.sum_congr rfl (fun j _ => countP_range_eq_sum (fun i => P i j) n)]
  exact Finset.sum_comm

theorem countP_flatMap (f : Nat → List (Nat × Nat)) (p : Nat × Nat → Bool) :
    ∀ (l : List Nat), (l.flatMap f).countP p = (l.map fun a => (f a).countP p).sum := by
  intro l
  induction l with
  | nil => simp
  | cons x xs ih =>
    rw [List.flatMap_cons, List.countP_append, List.map_cons, List.sum_cons, ih]

theorem destroyedCount_eq_sum (n : Nat) (mask : RemoveMap) :
    destroyedCount n mask
      = ((List.range n).map
          (fun i => (List.range n).countP fun j => decide (0 < mask i j))).sum := by
  unfold destroyedCount cellPairs
  rw [countP_flatMap]
  congr 1
  refine List.map_congr_left ?_
  intro i _
  rw [List.countP_map]
  rfl

theorem countP_ofFn_eq : ∀ {n : Nat} (f : Fin n → Tile) (p : Tile → Bool)
    (q : Nat → Bool), (∀ (i : Nat) (h : i < n), p (f ⟨i, h⟩) = q i) →
    (List.ofFn f).countP p = (List.range n).countP q := by
  intro n
  induction n with
  | zero =>
    intro f p q hq
    simp
  | succ n2 ih =>
    intro f p q hq
    rw [List.ofFn_succ, List.countP_cons, List.range_succ_eq_map, List.countP_cons,
      List.countP_map]
    have h1 : (List.ofFn fun i => f i.succ).countP p
        = (List.range n2).countP (q ∘ Nat.succ) :=
      ih _ p (q ∘ Nat.succ) (fun i h => hq (i + 1) (by omega))
    have h0 : (0 : Fin (n2 + 1)) = ⟨0, by omega⟩ := by
      ext
      simp
    have h2 : p (f 0) = q 0 := by
      rw [h0]
      exact hq 0 (by omega)
    rw [h1, h2]

theorem holesInCol_destroy {n : Nat} (g : Grid n) (mask : RemoveMap)
    (hfull : ∀ i j : Fin n, (g i j).isEmpty = false) {j : Nat} (hj : j < n) :
    holesInCol (colOfN (destroyTiles g mask) j)
      = (List.range n).countP fun i => decide (0 < mask i j) := by
  unfold holesInCol colOfN
  refine countP_ofFn_eq _ _ _ ?_
  intro i hi
  rw [dif_pos hj]
  unfold destroyTiles
  by_cases hm : 0 < mask i j
  · rw [if_pos hm]
    simp [hm]
  · rw [if_neg hm]
    rw [hfull ⟨i, hi⟩ ⟨j, hj⟩]
    simp [hm]

theorem holesTotal_destroy {n : Nat} (g : Grid n) (mask : RemoveMap)
    (hfull : ∀ i j : Fin n, (g i j).isEmpty = false) :
    holesTotal (destroyTiles g mask) = destroyedCount n mask := by
  unfold holesTotal
  rw [destroyedCount_eq_sum, ← double_count_comm]
  congr 1
  refine List.map_congr_left ?_
  intro j hj
  exact holesInCol_destroy g mask hfull (List.mem_range.mp hj)

theorem colOfN_compactGrid {n : Nat} (g : Grid n) {j : Nat} (hj : j < n) :
    colOfN (compactGrid g) j = compactColumn (colOfN g j) := by
  refine List.ext_getElem ?_ ?_
  · rw [colOfN_length, compactColumn_length, colOfN_length]
  · intro i h1 h2
    rw [colOfN_length] at h1
    rw [← List.getD_eq_getElem (compactColumn (colOfN g j)) emptyTile h2,
      ← List.getD_eq_getElem (colOfN (compactGrid g) j) emptyTile
        (by rw [colOfN_length]; omega)]
    rw [colOfN_getD (compactGrid g) hj h1]
    rfl

theorem holesTotal_compact {n : Nat} (g : Grid n) :
    holesTotal (compactGrid g) = holesTotal g := by
  unfold holesTotal
  congr 1
  refine List.map_congr_left ?_
  intro j hj
  rw [colOfN_compactGrid g (List.mem_range.mp hj), compactColumn_holes]

theorem holesTotal_of_full {n : Nat} (g : Grid n)
    (hfull : ∀ i j : Fin n, (g i j).isEmpty = false) : holesTotal g = 0 := by
  unfold holesTotal
  rw [List.sum_eq_zero]
  intro x hx
  rw [List.mem_map] at hx
  obtain ⟨j, hj, rfl⟩ := hx
  unfold holesInCol colOfN
  rw [List.countP_eq_zero]
  intro t ht
  rw [List.mem_ofFn] at ht
  obtain ⟨i, rfl⟩ := ht
  simp only [dif_pos (List.mem_range.mp hj)]
  rw [hfull i ⟨_, List.mem_range.mp hj⟩]
  simp

theorem destroyedCount_pos_of_match {n : Nat} {g : Grid n}
    (h : matchInBoard g = true) :
    0 < destroyedCount n (handleMatchesMask g) := by
  obtain ⟨r, c, hr, hc, hpos⟩ := (matchInBoard_iff_maskPos g).mp h
  unfold destroyedCount
  rw [List.countP_pos_iff]
  exact ⟨(r, c), mem_cellPairs.mpr ⟨hr, hc⟩, by simpa using hpos⟩

theorem compactGrid_char {n : Nat} (g : Grid n) :
    ∀ j q : Nat, j < n → q < n →
      (((colOfN (compactGrid g) j).getD q emptyTile).isEmpty = true
        ↔ q < holesInCol (colOfN (compactGrid g) j)) := by
  intro j q hj hq
  rw [colOfN_compactGrid g hj, compactColumn_holes]
  exact compactColumn_char (colOfN g j) (by rw [colOfN_length]; omega)

theorem cascade_settles {n : Nat} (stream : Nat → Nat) :
    ∀ (fuel : Nat) (g : Grid n) (pool k : Nat) (g2 : Grid n),
      (∀ i j : Fin n, (g i j).isEmpty = false) →
      cascade stream fuel g pool k = some g2 →
      matchInBoard g2 = false := by
  intro fuel
  induction fuel with
  | zero =>
    intro g pool k g2 _ h
    cases h
  | succ fuel2 ih =>
    intro g pool k g2 hfull h
    simp only [cascade] at h
    by_cases hd : destroyedCount n (handleMatchesMask g) = 0
    · have hnm : matchInBoard g = false := by
        cases hm : matchInBoard g
        · rfl
        · exact absurd (destroyedCount_pos_of_match hm) (by omega)
      rw [if_pos hd, if_pos (holesTotal_of_full g hfull)] at h
      injection h with h
      rw [← h]
      exact hnm
    · have hdpos : 0 < destroyedCount n (handleMatchesMask g) := Nat.pos_of_ne_zero hd
      rw [if_neg hd] at h
      have hht : holesTotal (compactGrid (destroyTiles g (handleMatchesMask g)))
          = destroyedCount n (handleMatchesMask g) := by
        rw [holesTotal_compact, holesTotal_destroy g _ hfull]
      rw [if_neg (by omega)] at h
      have hrfull : ∀ i j : Fin n,
          (((replenishGrid (compactGrid (destroyTiles g (handleMatchesMask g)))
            (pool + destroyedCount n (handleMatchesMask g)) k stream).1 i j).isEmpty
            = false) :=
        replenishGrid_full _ _ _ _ (compactGrid_char _) (by omega)
      by_cases hm2 : matchInBoard (replenishGrid (compactGrid (destroyTiles g
          (handleMatchesMask g))) (pool + destroyedCount n (handleMatchesMask g))
          k stream).1 = true
      · rw [if_pos hm2] at h
        exact ih _ _ _ g2 hrfull h
      · rw [if_neg hm2] at h
        injection h with h
        rw [← h]
        cases hmm : matchInBoard (replenishGrid (compactGrid (destroyTiles g
            (handleMatchesMask g))) (pool + destroyedCount n (handleMatchesMask g))
            k stream).1
        · rfl
        · exact absurd hmm hm2

theorem swapTilesG_full {n : Nat} {g : Grid n}
    (hfull : ∀ i j : Fin n, (g i j).isEmpty = false) (a b : Fin n × Fin n) :
    ∀ i j : Fin n, ((swapTilesG g a b) i j).isEmpty = false := by
  intro i j
  unfold swapTilesG
  split_ifs <;> simp [hfull i j]

theorem swapResolve_settles {n : Nat} (stream : Nat → Nat) (fuel : Nat)
    (g : Grid n) (a b : Fin n × Fin n) (k : Nat) (g2 : Grid n)
    (hfull : ∀ i j : Fin n, (g i j).isEmpty = false)
    (h : swapResolve stream fuel g a b k = some g2) :
    matchInBoard g2 = false := by
  simp only [swapResolve] at h
  by_cases h1 : matchInBoard (swapTilesG g a b) = true
  · rw [if_pos h1] at h
    exact cascade_settles stream fuel _ 0 k g2 (swapTilesG_full hfull a b) h
  · rw [if_neg h1] at h
    by_cases h2 : matchInBoard (swapTilesG (swapTilesG g a b) a b) = true
    · rw [if_pos h2] at h
      exact cascade_settles stream fuel _ 0 k g2
        (swapTilesG_full (swapTilesG_full hfull a b) a b) h
    · rw [if_neg h2] at h
      injection h with h
      rw [← h]
      cases hmm : matchInBoard (swapTilesG (swapTilesG g a b) a b)
      · rfl
      · exact absurd hmm h2

theorem tileAt_agree {n : Nat} {g1 g2 : Grid n} {i j : Fin n}
    (h : ∀ (r c : Fin n), r ≤ i → c ≤ j → g1 r c = g2 r c)
    {row col : Int} (hrow : row ≤ (i.val : Int)) (hcol : col ≤ (j.val : Int)) :
    tileAt g1 row col = tileAt g2 row col := by
  unfold tileAt
  split
  · next hb =>
    congr 1
    refine h _ _ (Fin.le_def.mpr ?_) (Fin.le_def.mpr ?_)
    · show row.toNat ≤ i.val
      omega
    · show col.toNat ≤ j.val
      omega
  · rfl

theorem isMatch_agree {n : Nat} {g1 g2 : Grid n} {i j : Fin n}
    (h : ∀ (r c : Fin n), r ≤ i → c ≤ j → g1 r c = g2 r c) :
    isMatch g1 i.val j.val = isMatch g2 i.val j.val := by
  unfold isMatch isHorizontalMatch isVerticalMatch
  rw [tileAt_agree h (by omega) (by omega), tileAt_agree h (by omega) (by omega),
    tileAt_agree h (by omega) (by omega), tileAt_agree h (by omega) (by omega),
    tileAt_agree h (by omega) (by omega)]

theorem isMatch_setCell_outside {n : Nat} (g : Grid n) (i0 j0 : Fin n) (t : Tile)
    {r c : Fin n}
    (hout : r.val < i0.val ∨ (r.val = i0.val ∧ c.val < j0.val)) :
    isMatch (setCell g i0 j0 t) r.val c.val = isMatch g r.val c.val := by
  refine isMatch_agree ?_
  intro r2 c2 hr hc
  unfold setCell
  rw [if_neg]
  rintro ⟨h1, h2⟩
  subst h1
  subst h2
  rw [Fin.le_def] at hr hc
  omega

theorem genCell_some {n : Nat} {g : Grid n} {i0 j0 : Fin n} {stream : Nat → Nat} :
    ∀ {fuel k : Nat} {gk : Grid n × Nat},
      genCell g i0 j0 stream k fuel = some gk →
      (∃ cv, gk.1 = setCell g i0 j0 { color := cv, isEmpty := false }) ∧
      isMatch gk.1 i0.val j0.val = false := by
  intro fuel
  induction fuel with
  | zero =>
    intro k gk h
    cases h
  | succ fuel2 ih =>
    intro k gk h
    simp only [genCell] at h
    by_cases hm : isMatch (setCell g i0 j0 { color := stream k, isEmpty := false })
        i0.val j0.val = true
    · rw [if_pos hm] at h
      exact ih h
    · rw [if_neg hm] at h
      injection h with h
      rw [← h]
      refine ⟨⟨stream k, rfl⟩, ?_⟩
      cases hmm : isMatch (setCell g i0 j0 { color := stream k, isEmpty := false })
          i0.val j0.val
      · rfl
      · exact absurd hmm hm

theorem matchInBoard_eq_false_of {n : Nat} {g : Grid n}
    (h : ∀ r c : Fin n, isMatch g r.val c.val = false) : matchInBoard g = false := by
  cases hm : matchInBoard g
  · rfl
  · exfalso
    unfold matchInBoard at hm
    rw [List.any_eq_true] at hm
    obtain ⟨i, hi, hm⟩ := hm
    rw [List.any_eq_true] at hm
    obtain ⟨j, hj, hm⟩ := hm
    have := h ⟨i, List.mem_range.mp hi⟩ ⟨j, List.mem_range.mp hj⟩
    rw [this] at hm
    cases hm

theorem genRow_inv {n : Nat} (i0 : Fin n) (stream : Nat → Nat) (cellFuel : Nat) :
    ∀ (count j : Nat) (g : Grid n) (k : Nat) (gk : Grid n × Nat),
      j + count = n →
      (∀ r c : Fin n, (r.val < i0.val ∨ (r.val = i0.val ∧ c.val < j)) →
        isMatch g r.val c.val = false) →
      genRow i0 stream cellFuel count j g k = some gk →
      (∀ r c : Fin n, (r.val < i0.val ∨ r.val = i0.val) →
        isMatch gk.1 r.val c.val = false) := by
  intro count
  induction count with
  | zero =>
    intro j g k gk hj hpre h
    simp only [genRow] at h
    injection h with h
    subst h
    intro r c hr
    rcases hr with hr | hr
    · exact hpre r c (Or.inl hr)
    · exact hpre r c (Or.inr ⟨hr, by omega⟩)
  | succ count2 ih =>
    intro j g k gk hj hpre h
    have hjn : j < n := by omega
    simp only [genRow] at h
    rw [dif_pos hjn] at h
    cases hc : genCell g i0 ⟨j, hjn⟩ stream k cellFuel with
    | none =>
      rw [hc] at h
      cases h
    | some r =>
      rw [hc] at h
      obtain ⟨⟨cv, hset⟩, hnomatch⟩ := genCell_some hc
      refine ih (j + 1) r.1 r.2 gk (by omega) ?_ h
      intro r2 c2 hrc
      by_cases hnew : r2.val = i0.val ∧ c2.val = j
      · rw [hnew.1, hnew.2]
        exact hnomatch
      · have hout : r2.val < i0.val ∨ (r2.val = i0.val ∧ c2.val < j) := by
          rcases hrc with h1 | ⟨h1a, h1b⟩
          · exact Or.inl h1
          · refine Or.inr ⟨h1a, ?_⟩
            have hne : c2.val ≠ j := fun hcj => hnew ⟨h1a, hcj⟩
            omega
        rw [hset, isMatch_setCell_outside g i0 ⟨j, hjn⟩ _ hout]
        exact hpre r2 c2 hout

theorem genRows_inv {n : Nat} (stream : Nat → Nat) (cellFuel : Nat) :
    ∀ (count i : Nat) (g : Grid n) (k : Nat) (gk : Grid n × Nat),
      i + count = n →
      (∀ r c : Fin n, r.val < i → isMatch g r.val c.val = false) →
      genRows stream cellFuel count i g k = some gk →
      ∀ r c : Fin n, isMatch gk.1 r.val c.val = false := by
  intro count
  induction count with
  | zero =>
    intro i g k gk hi hpre h
    simp only [genRows] at h
    injection h with h
    subst h
    intro r c
    exact hpre r c (by omega)
  | succ count2 ih =>
    intro i g k gk hi hpre h
    have hin : i < n := by omega
    simp only [genRows] at h
    rw [dif_pos hin] at h
    cases hc : genRow (⟨i, hin⟩ : Fin n) stream cellFuel n 0 g k with
    | none =>
      rw [hc] at h
      cases h
    | some r =>
      rw [hc] at h
      have hrow := genRow_inv (⟨i, hin⟩ : Fin n) stream cellFuel n 0 g k r
        (by omega) (fun r2 c2 h2 => by
          rcases h2 with h2 | ⟨_, h2⟩
          · exact hpre r2 c2 h2
          · omega) hc
      refine ih (i + 1) r.1 r.2 gk (by omega) ?_ h
      intro r2 c2 h2
      rcases Nat.lt_or_ge r2.val i with h3 | h3
      · exact hrow r2 c2 (Or.inl h3)
      · exact hrow r2 c2 (Or.inr (show r2.val = i by omega))

theorem createGrid_no_match {n : Nat} {stream : Nat → Nat} {cellFuel : Nat}
    {gk : Grid n × Nat} (h : createGrid n stream cellFuel = some gk) :
    matchInBoard gk.1 = false :=
  matchInBoard_eq_false_of
    (genRows_inv stream cellFuel n 0 _ 0 gk (by omega)
      (fun r c hr => absurd hr (by omega)) h)

/-!  Claim theorems. -/

/-- Claim C2 (code bug evidence): on a mid-cascade grid whose row 0 reads
colors 0,0,0 with the middle cell an unoccupied hole, the full-board scan
gives the hole a positive removal count — the hole does not terminate the
run, because tileAt never returns null for an in-bounds empty cell, so
markMatches never takes its hole-reset branch. -/
theorem claim_C2_hole_joins_run :
    (holeRunGrid 0 1).isEmpty = true ∧ 0 < handleMatchesMask holeRunGrid 0 1 := by
  decide

/-- Claim C4: from a settled grid, swapping an adjacent pair whose swap
produces no match and then applying the defined revert returns the very
same grid (cell-by-cell), and that grid is what the swap resolution
settles on. -/
theorem claim_C4_swap_revert_roundtrip {n : Nat} (stream : Nat → Nat)
    (fuel : Nat) (g : Grid n) (a b : Fin n × Fin n) (k : Nat)
    (hsettled : matchInBoard g = false)
    (hadjacent : areNextC a b = true)
    (hnomatch : matchInBoard (swapTilesG g a b) = false) :
    swapTilesG (swapTilesG g a b) a b = g ∧
    swapResolve stream fuel g a b k = some g := by
  refine ⟨swapTilesG_invol g a b, ?_⟩
  simp [swapResolve, swapTilesG_invol, hnomatch, hsettled]

/-- Claim C4 witness: the roundtrip on the concrete 2x2 demo grid. -/
theorem claim_C4_witness :
    swapTilesG (swapTilesG smallDemoGrid ((0 : Fin 2), (0 : Fin 2)) (0, 1)) (0, 0) (0, 1) = smallDemoGrid ∧
    swapResolve (fun _ => 0) 1 smallDemoGrid ((0 : Fin 2), (0 : Fin 2)) (0, 1) 0 = some smallDemoGrid :=
  claim_C4_swap_revert_roundtrip (fun _ => 0) 1 smallDemoGrid (0, 0) (0, 1) 0
    (by decide) (by decide) (by decide)

/-- Claim C5 counterexample: with picking locked (a swap already in
flight, two tweens pending) but the drag flag and the selection still
live, a pointer-move is not ignored: startSwipe mutates the grid and
starts a second swap. -/
theorem claim_C5_counterexample :
    lockedSwapState.canPick = false ∧ lockedSwapState.swappingTiles = 2 ∧
    ((startSwipe lockedSwapState leftDragPointer).grid 0 0).color ≠
      (lockedSwapState.grid 0 0).color ∧
    (startSwipe lockedSwapState leftDragPointer).swappingTiles = 2 ∧
    (startSwipe lockedSwapState leftDragPointer).canPick = false := by
  refine ⟨rfl, rfl, ?_, ?_, ?_⟩ <;> decide

/-- Claim C5 (amended): pointer-down events are ignored whenever canPick
is false, and pointer-move events are ignored whenever the drag flag is
down or no tile is selected; canPick alone does not block pointer-move. -/
theorem claim_C5_input_lock_amended {n : Nat} (s : GameState n) (p : Pointer) :
    (s.canPick = false → tileSelect s p = s) ∧
    (s.dragging = false → startSwipe s p = s) ∧
    (s.selectedTile = none → startSwipe s p = s) := by
  refine ⟨fun h => ?_, fun h => ?_, fun h => ?_⟩
  · simp [tileSelect, h]
  · unfold startSwipe
    cases hs : s.selectedTile with
    | none => rfl
    | some sel => simp [h]
  · simp [startSwipe, h]

/-- Claim C5 witness: both handlers leave a locked idle state unchanged. -/
theorem claim_C5_witness :
    tileSelect lockedIdleState leftDragPointer = lockedIdleState ∧
    startSwipe lockedIdleState leftDragPointer = lockedIdleState :=
  ⟨(claim_C5_input_lock_amended lockedIdleState leftDragPointer).1 rfl,
   (claim_C5_input_lock_amended lockedIdleState leftDragPointer).2.1 rfl⟩

/-- Claim C6: on the 4x4 grid whose top row reads a,a,a,b for any two
distinct palette colors, the full-board scan marks the first three cells
with count at least 1 and the fourth with count 0; and the cell at the
crossing of a horizontal and a vertical run of three has count exactly 2. -/
theorem claim_C6_mask_concrete_shapes :
    (∀ a b : Nat, a < 6 → b < 6 → a ≠ b →
      1 ≤ handleMatchesMask (rowShapeGrid a b) 0 0 ∧
      1 ≤ handleMatchesMask (rowShapeGrid a b) 0 1 ∧
      1 ≤ handleMatchesMask (rowShapeGrid a b) 0 2 ∧
      handleMatchesMask (rowShapeGrid a b) 0 3 = 0) ∧
    handleMatchesMask crossShapeGrid 2 2 = 2 := by
  constructor
  · intro a b ha hb hab
    interval_cases a <;> interval_cases b <;>
      first
      | exact absurd rfl hab
      | decide
  · decide

/-- Claim C6 witness: the row shape at colors 0 and 1. -/
theorem claim_C6_witness :
    1 ≤ handleMatchesMask (rowShapeGrid 0 1) 0 0 ∧
    1 ≤ handleMatchesMask (rowShapeGrid 0 1) 0 1 ∧
    1 ≤ handleMatchesMask (rowShapeGrid 0 1) 0 2 ∧
    handleMatchesMask (rowShapeGrid 0 1) 0 3 = 0 :=
  claim_C6_mask_concrete_shapes.1 0 1 (by decide) (by decide) (by decide)

/-- Claim C7: invoking destroyMarkedTiles with an all-zero removal mask
on a grid without holes destroys nothing, skips straight to the
replenish step, and settles immediately on the unchanged grid (picking
re-enabled). -/
theorem claim_C7_empty_mask_noop {n : Nat} (stream : Nat → Nat) (fuel : Nat)
    (g : Grid n) (mask : RemoveMap) (pool k : Nat)
    (hmask : ∀ i j, i < n → j < n → mask i j = 0)
    (hfull : holesTotal g = 0) :
    destroyMarkedTilesFrom stream fuel g mask pool k = some g := by
  unfold destroyMarkedTilesFrom
  rw [destroyedCount_eq_zero hmask]
  simp [hfull]

/-- Claim C7 witness: the empty-mask pass on the full 2x2 demo grid. -/
theorem claim_C7_witness :
    destroyMarkedTilesFrom (fun _ => 0) 1 smallDemoGrid zeroMap 3 0 = some smallDemoGrid :=
  claim_C7_empty_mask_noop (fun _ => 0) 1 smallDemoGrid zeroMap 3 0
    (fun _ _ _ _ => rfl) (by decide)

/-- Claim C8: a pointer-move computes a swap direction exactly when the
displacement exceeds half a tile along one axis while staying below a
quarter tile on the other axis, and the four direction conditions of
startSwipe are pairwise incompatible. -/
theorem claim_C8_drag_thresholds (dX dY : Int) :
    (swipeDeltaRow dX dY + swipeDeltaCol dX dY ≠ 0 ↔
      ((mathAbs dX > tileSizeC / 2 ∧ mathAbs dY < tileSizeC / 4) ∨
       (mathAbs dY > tileSizeC / 2 ∧ mathAbs dX < tileSizeC / 4))) ∧
    ¬((dX > tileSizeC / 2 ∧ mathAbs dY < tileSizeC / 4) ∧
      (dX < -(tileSizeC / 2) ∧ mathAbs dY < tileSizeC / 4)) ∧
    ¬((dX > tileSizeC / 2 ∧ mathAbs dY < tileSizeC / 4) ∧
      (dY > tileSizeC / 2 ∧ mathAbs dX < tileSizeC / 4)) ∧
    ¬((dX > tileSizeC / 2 ∧ mathAbs dY < tileSizeC / 4) ∧
      (dY < -(tileSizeC / 2) ∧ mathAbs dX < tileSizeC / 4)) ∧
    ¬((dX < -(tileSizeC / 2) ∧ mathAbs dY < tileSizeC / 4) ∧
      (dY > tileSizeC / 2 ∧ mathAbs dX < tileSizeC / 4)) ∧
    ¬((dX < -(tileSizeC / 2) ∧ mathAbs dY < tileSizeC / 4) ∧
      (dY < -(tileSizeC / 2) ∧ mathAbs dX < tileSizeC / 4)) ∧
    ¬((dY > tileSizeC / 2 ∧ mathAbs dX < tileSizeC / 4) ∧
      (dY < -(tileSizeC / 2) ∧ mathAbs dX < tileSizeC / 4)) := by
  simp only [swipeDeltaRow, swipeDeltaCol, mathAbs, tileSizeC]
  norm_num
  split_ifs <;> omega

/-- Claim C8 witness: a pure downward drag of a full tile fires a
direction. -/
theorem claim_C8_witness :
    swipeDeltaRow 0 (-100) + swipeDeltaCol 0 (-100) ≠ 0 :=
  (claim_C8_drag_thresholds 0 (-100)).1.mpr (Or.inr (by decide))

/-- Claim C9: the fast settle-check matchInBoard is true exactly when the
removal mask produced by running markMatches in both directions has a
positive entry, and a grid entering destroyMarkedTiles through a true
matchInBoard therefore never hits the defensive empty-mask branch. -/
theorem claim_C9_detector_agreement {n : Nat} (g : Grid n) :
    (matchInBoard g = true ↔ ∃ i j : Fin n, 0 < handleMatchesMask g i.val j.val) ∧
    (matchInBoard g = true → destroyedCount n (handleMatchesMask g) ≠ 0) := by
  have hiff := matchInBoard_iff_maskPos g
  constructor
  · rw [hiff]
    constructor
    · rintro ⟨r, c, hr, hc, hpos⟩
      exact ⟨⟨r, hr⟩, ⟨c, hc⟩, hpos⟩
    · rintro ⟨i, j, hpos⟩
      exact ⟨i.val, j.val, i.isLt, j.isLt, hpos⟩
  · intro h
    obtain ⟨r, c, hr, hc, hpos⟩ := hiff.mp h
    have hcount : 0 < destroyedCount n (handleMatchesMask g) := by
      unfold destroyedCount
      rw [List.countP_pos_iff]
      exact ⟨(r, c), mem_cellPairs.mpr ⟨hr, hc⟩, by simpa using hpos⟩
    omega

/-- Claim C9 witness: the matching mid-cascade demo grid has a positive
mask entry and a nonzero destroy count. -/
theorem claim_C9_witness :
    (∃ i j : Fin 4, 0 < handleMatchesMask holeRunGrid i.val j.val) ∧
    destroyedCount 4 (handleMatchesMask holeRunGrid) ≠ 0 :=
  ⟨(claim_C9_detector_agreement holeRunGrid).1.mp (by decide),
   (claim_C9_detector_agreement holeRunGrid).2 (by decide)⟩

/-- Claim C3: compaction of a column preserves its length, leaves exactly
the original number of holes and puts them all on top (every cell below
them occupied), moves every surviving cell down by exactly the number of
holes strictly below it in the post-removal column, and sends distinct
surviving cells to distinct destinations in their original relative
order (the destination map is strictly monotone). -/
theorem claim_C3_compaction_correct (col : List Tile) :
    (compactColumn col).length = col.length ∧
    (∀ q, q < col.length →
      (((compactColumn col).getD q emptyTile).isEmpty = true ↔ q < holesInCol col)) ∧
    (∀ p, p < col.length → (col.getD p emptyTile).isEmpty = false →
      (compactColumn col).getD (p + holesBelow col p) emptyTile = col.getD p emptyTile) ∧
    (∀ p q, p < q → q < col.length → (col.getD q emptyTile).isEmpty = false →
      p + holesBelow col p < q + holesBelow col q) :=
  ⟨compactColumn_length col,
   fun _ hq => compactColumn_char col hq,
   fun _ hp hocc => compactColumn_dest col hp hocc,
   fun _ _ hpq hq hocc => holesBelow_dest_mono hpq hq hocc⟩

/-- Claim C3 witness: on the column occupied, hole, occupied, hole the
top token falls two rows and the top cell ends up a hole. -/
theorem claim_C3_witness :
    ((compactColumn fallDemoCol).getD (0 + holesBelow fallDemoCol 0) emptyTile =
      fallDemoCol.getD 0 emptyTile) ∧
    (((compactColumn fallDemoCol).getD 0 emptyTile).isEmpty = true ↔
      0 < holesInCol fallDemoCol) :=
  ⟨(claim_C3_compaction_correct fallDemoCol).2.2.1 0 (by decide) (by decide),
   (claim_C3_compaction_correct fallDemoCol).2.1 0 (by decide)⟩

/-- Claim C10: replenishField recolors and marks occupied exactly the
topmost holesInCol positions of a column, irrespective of where the
holes lie — positions from holesInCol on are untouched, so when every
hole lies above every occupied cell and the pool suffices the whole
column ends occupied, and otherwise a lower hole survives (while
occupied top cells are overwritten). -/
theorem claim_C10_refill_topmost (col : List Tile) (pool k : Nat)
    (stream : Nat → Nat) :
    (∀ q, holesInCol col ≤ q →
      (replenishColumn col pool k stream).1.getD q emptyTile = col.getD q emptyTile) ∧
    (holesInCol col ≤ pool → ∀ q, q < holesInCol col →
      (replenishColumn col pool k stream).1.getD q emptyTile
        = { color := stream (k + q), isEmpty := false }) ∧
    ((∀ q, q < col.length →
        ((col.getD q emptyTile).isEmpty = true ↔ q < holesInCol col)) →
      holesInCol col ≤ pool →
      ∀ q, q < col.length →
        ((replenishColumn col pool k stream).1.getD q emptyTile).isEmpty = false) ∧
    (∀ q, holesInCol col ≤ q → q < col.length →
      (col.getD q emptyTile).isEmpty = true →
      ((replenishColumn col pool k stream).1.getD q emptyTile).isEmpty = true) := by
  refine ⟨fun q hq => replenishColumn_unchanged col pool k stream hq,
    fun hp q hq => replenishColumn_filled col k stream hp hq,
    fun hchar hp q hq => replenishColumn_full col k stream hchar hp hq,
    fun q hq _ hemp => ?_⟩
  rw [replenishColumn_unchanged col pool k stream hq]
  exact hemp

/-- Claim C10 witness: on the column occupied, hole, occupied, hole with
a full pool, the top two positions are recolored and the bottom hole
survives. -/
theorem claim_C10_witness :
    ((replenishColumn mixedHoleCol 5 0 (fun x => 40 + x)).1.getD 3 emptyTile
      = mixedHoleCol.getD 3 emptyTile) ∧
    ((replenishColumn mixedHoleCol 5 0 (fun x => 40 + x)).1.getD 0 emptyTile
      = { color := 40, isEmpty := false }) ∧
    ((replenishColumn mixedHoleCol 5 0 (fun x => 40 + x)).1.getD 3 emptyTile).isEmpty
      = true :=
  ⟨(claim_C10_refill_topmost mixedHoleCol 5 0 (fun x => 40 + x)).1 3 (by decide),
   (claim_C10_refill_topmost mixedHoleCol 5 0 (fun x => 40 + x)).2.1 (by decide) 0 (by decide),
   (claim_C10_refill_topmost mixedHoleCol 5 0 (fun x => 40 + x)).2.2.2 3 (by decide)
     (by decide) (by decide)⟩

/-- Claim C1: every settled grid the model produces is match-free — the
grid returned by create has no match, and whenever a cascade (or a
resolved swap) reaches the state in which picking is re-enabled, the
grid it settles on satisfies no isMatch anywhere.  Fully-occupied entry
grids are exactly the reachable entry states of these operations. -/
theorem claim_C1_settled_invariant {n : Nat} (stream : Nat → Nat)
    (cellFuel fuel k : Nat) :
    (∀ gk : Grid n × Nat, createGrid n stream cellFuel = some gk →
      matchInBoard gk.1 = false) ∧
    (∀ (g g2 : Grid n) (pool : Nat),
      (∀ i j : Fin n, (g i j).isEmpty = false) →
      cascade stream fuel g pool k = some g2 → matchInBoard g2 = false) ∧
    (∀ (g g2 : Grid n) (a b : Fin n × Fin n),
      (∀ i j : Fin n, (g i j).isEmpty = false) →
      swapResolve stream fuel g a b k = some g2 → matchInBoard g2 = false) :=
  ⟨fun _ h => createGrid_no_match h,
   fun g g2 pool hf h => cascade_settles stream fuel g pool k g2 hf h,
   fun g g2 a b hf h => swapResolve_settles stream fuel g a b k g2 hf h⟩

/-- Claim C1 witness: a freshly generated 2x2 grid and a settled cascade
on the monochrome 2x2 grid are match-free. -/
theorem claim_C1_witness :
    matchInBoard ((createGrid 2 (fun k => k % 6) 1).getD (monoDemoGrid, 0)).1 = false ∧
    matchInBoard monoDemoGrid = false :=
  ⟨(claim_C1_settled_invariant (fun k => k % 6) 1 1 0).1
      ((createGrid 2 (fun k => k % 6) 1).getD (monoDemoGrid, 0)) rfl,
   (claim_C1_settled_invariant (fun k => k % 6) 1 1 0).2.1 monoDemoGrid monoDemoGrid 0
     (by decide) (by decide)⟩
